import Mathlib

/-!
# Preflight review core: a shallow embedding with verified properties

This development embeds the core of the `preflight` code-review service in
Lean 4 and proves properties of it. The embedding follows the Rust source:

* `crates/preflight-core/src/diff.rs` — the diff data model;
* `crates/preflight-core/src/parser.rs` — the unified-diff parser;
* `crates/preflight-core/src/interdiff.rs` — reconstruction and interdiff;
* `crates/preflight-core/src/json_store.rs` — the snapshot store operations;
* `crates/preflight-server/src/routes/{reviews,revisions,comments,files}.rs`
  — the HTTP actions built on the store;
* `crates/preflight-server/src/state.rs` — the agent-presence tracker.

Rust strings are modelled as Lean `String`, operated on through their
character lists (the relevant prefixes and separators are ASCII, so byte
and character indexing agree). `u32` values are modelled as `Nat`; where
the source can overflow a `u32` counter the wrap-around `% 2^32` is made
explicit. Fallible operations return `Except`. External collaborators
(the git subprocess, the `similar` text-diff crate, the highlighter) are
modelled by their outputs or by an abstract function constrained only by
the contract the core relies on.
-/

namespace Preflight

/-- Equality of `Except` values is decidable when it is on both sides. -/
instance exceptDecEq {ε α : Type} [DecidableEq ε] [DecidableEq α] :
    DecidableEq (Except ε α) := fun x y =>
  match x, y with
  | .ok a, .ok b =>
    if h : a = b then isTrue (by rw [h])
    else isFalse (by intro hh; cases hh; exact h rfl)
  | .ok _, .error _ => isFalse (by intro hh; cases hh)
  | .error _, .ok _ => isFalse (by intro hh; cases hh)
  | .error e, .error f =>
    if h : e = f then isTrue (by rw [h])
    else isFalse (by intro hh; cases hh; exact h rfl)

/-! ## String helpers

Rust's `str::lines`, `str::starts_with`, `str::strip_prefix` and
`str::split` modelled on character lists. -/

/-- `Rust str::starts_with` on strings. -/
def strStartsWith (s p : String) : Bool :=
  p.data.isPrefixOf s.data

/-- `Rust str::strip_prefix`: `some` of the remainder when `p` is a prefix. -/
def stripPre (s p : String) : Option String :=
  if strStartsWith s p then some ⟨s.data.drop p.data.length⟩ else none

/-- Split a character list at every occurrence of the separator; yields one
more piece than there are separators (like Rust `str::split`). -/
def splitCh (sep : Char) : List Char → List (List Char)
  | [] => [[]]
  | c :: cs =>
    if c = sep then
      [] :: splitCh sep cs
    else
      match splitCh sep cs with
      | [] => [[c]]
      | p :: ps => (c :: p) :: ps

/-- Rust `str::split`. -/
def strSplit (s : String) (sep : Char) : List String :=
  (splitCh sep s.data).map (fun cs => ⟨cs⟩)

/-- One piece of Rust `str::lines`: strip a single trailing `'\r'`
(a `"\r\n"` terminator counts as one line ending). -/
def stripTrailingCR (cs : List Char) : List Char :=
  if cs.getLast? = some '\r' then cs.dropLast else cs

/-- Split at `'\n'` separators, Rust-`lines` style: the final line ending is
optional and produces no trailing empty piece; the empty string has no
lines. -/
def rustSplitLines : List Char → List (List Char)
  | [] => []
  | c :: cs =>
    if c = '\n' then
      [] :: rustSplitLines cs
    else
      match rustSplitLines cs with
      | [] => [[c]]
      | p :: ps => (c :: p) :: ps

/-- Rust `str::lines` collected into a list. -/
def rustLines (s : String) : List String :=
  (rustSplitLines s.data).map (fun cs => ⟨stripTrailingCR cs⟩)

/-! ## Diff data model (`diff.rs`) -/

/-- `diff.rs::LineKind`. -/
inductive LineKind where
  | Context
  | Added
  | Removed
deriving DecidableEq, Repr

/-- `diff.rs::FileStatus`. -/
inductive FileStatus where
  | Added
  | Modified
  | Deleted
  | Renamed
  | Binary
deriving DecidableEq, Repr

/-- `diff.rs::DiffLine` (the core struct; the `highlighted` decoration added
by the presentation layer is modelled separately). -/
structure DiffLine where
  kind : LineKind
  content : String
  old_line_no : Option Nat
  new_line_no : Option Nat
deriving DecidableEq, Repr

/-- `diff.rs::Hunk`. -/
structure Hunk where
  old_start : Nat
  old_count : Nat
  new_start : Nat
  new_count : Nat
  context : Option String
  lines : List DiffLine
deriving DecidableEq, Repr

/-- `diff.rs::FileDiff`. -/
structure FileDiff where
  old_path : Option String
  new_path : Option String
  status : FileStatus
  hunks : List Hunk
deriving DecidableEq, Repr

/-! ## Unified-diff parser (`parser.rs`) -/

/-- `parser.rs::ParseError`. -/
structure ParseError where
  line : Nat
  message : String
deriving DecidableEq, Repr

/-- The modulus of the `u32` arithmetic in the parser. -/
def U32MOD : Nat := 4294967296

/-- Decimal digits to a number, `none` on a non-digit or empty input. -/
def decDigits? : List Char → Option Nat
  | [] => none
  | cs => go cs 0
where
  go : List Char → Nat → Option Nat
    | [], acc => some acc
    | c :: cs, acc =>
      if c.isDigit then go cs (acc * 10 + (c.toNat - 48)) else none

/-- Rust `str::parse::<u32>`: optional leading `'+'`, then decimal digits,
rejecting values above `u32::MAX`. -/
def parseU32 (s : String) : Option Nat :=
  let cs := match s.data with
    | '+' :: rest => rest
    | other => other
  match decDigits? cs with
  | some n => if n < U32MOD then some n else none
  | none => none

/-- `parser.rs::parse_range`: a spec like `-10,6` or `+10` (count omitted
means 1). -/
def parse_range (spec : String) (prefixCh : Char) (line_no : Nat) :
    Except ParseError (Nat × Nat) :=
  match spec.data with
  | [] => Except.error ⟨line_no + 1, "expected range spec prefix in " ++ spec⟩
  | c :: rest =>
    if c = prefixCh then
      match strSplit (⟨rest⟩ : String) ',' with
      | [startStr, countStr] =>
        match parseU32 startStr, parseU32 countStr with
        | some start, some count => Except.ok (start, count)
        | _, _ => Except.error ⟨line_no + 1, "invalid range " ++ spec⟩
      | [startStr] =>
        match parseU32 startStr with
        | some start => Except.ok (start, 1)
        | none => Except.error ⟨line_no + 1, "invalid start in range " ++ spec⟩
      | _ => Except.error ⟨line_no + 1, "invalid range " ++ spec⟩
    else Except.error ⟨line_no + 1, "expected range spec prefix in " ++ spec⟩

/-- Find the first occurrence of the pattern as a sublist and split around
it (Rust `str::find` followed by slicing). -/
def findSplit (pat : List Char) : List Char → Option (List Char × List Char)
  | [] => if pat.isPrefixOf ([] : List Char) then some ([], []) else none
  | c :: cs =>
    if pat.isPrefixOf (c :: cs) then
      some ([], (c :: cs).drop pat.length)
    else
      match findSplit pat cs with
      | some (l, r) => some (c :: l, r)
      | none => none

/-- The trailing context text of a hunk header: the text after the closing
marker, with one leading space stripped; empty means none. -/
def headerContext (after_closing : String) : Option String :=
  if after_closing.data.isEmpty then none
  else
    let ctx := match stripPre after_closing " " with
      | some s => s
      | none => after_closing
    if ctx.data.isEmpty then none else some ctx

/-- `parser.rs::parse_hunk_header`: a header like
`@@ -10,6 +10,7 @@ fn existing_function() {`. -/
def parse_hunk_header (header : String) (line_no : Nat) :
    Except ParseError (Nat × Nat × Nat × Nat × Option String) :=
  match stripPre header "@@ " with
  | none =>
    Except.error ⟨line_no + 1, "expected hunk header starting with a marker"⟩
  | some after_at =>
    match findSplit " @@".data after_at.data with
    | none => Except.error ⟨line_no + 1, "expected closing marker in hunk header"⟩
    | some (l, r) =>
      let context := headerContext ⟨r⟩
      match strSplit (⟨l⟩ : String) ' ' with
      | [p1, p2] =>
        match parse_range p1 '-' line_no with
        | Except.error e => Except.error e
        | Except.ok (old_start, old_count) =>
          match parse_range p2 '+' line_no with
          | Except.error e => Except.error e
          | Except.ok (new_start, new_count) =>
            Except.ok (old_start, old_count, new_start, new_count, context)
      | parts =>
        Except.error ⟨line_no + 1,
          "expected two range specs, got " ++ toString parts.length⟩

/-- The body loop of `parser.rs::parse_hunk`: consume diff lines after the
hunk header, stopping at the next hunk header, an unknown prefix, or the end
of the block. Returns the accumulated lines, the unconsumed remainder of the
block, and the index just past the consumed lines. `u32` line counters wrap
modulo `2^32`. -/
def parseHunkBody (old0 new0 : Nat) :
    List String → Nat → (List DiffLine × List String × Nat)
  | [], pos => ([], [], pos)
  | l :: rest, pos =>
    if strStartsWith l "@@ " then
      ([], l :: rest, pos)
    else if strStartsWith l "\\" then
      parseHunkBody old0 new0 rest (pos + 1)
    else
      match l.data with
      | [] =>
        let r := parseHunkBody ((old0 + 1) % U32MOD) ((new0 + 1) % U32MOD) rest (pos + 1)
        (⟨.Context, "", some old0, some new0⟩ :: r.1, r.2.1, r.2.2)
      | ' ' :: content =>
        let r := parseHunkBody ((old0 + 1) % U32MOD) ((new0 + 1) % U32MOD) rest (pos + 1)
        (⟨.Context, ⟨content⟩, some old0, some new0⟩ :: r.1, r.2.1, r.2.2)
      | '+' :: content =>
        let r := parseHunkBody old0 ((new0 + 1) % U32MOD) rest (pos + 1)
        (⟨.Added, ⟨content⟩, none, some new0⟩ :: r.1, r.2.1, r.2.2)
      | '-' :: content =>
        let r := parseHunkBody ((old0 + 1) % U32MOD) new0 rest (pos + 1)
        (⟨.Removed, ⟨content⟩, some old0, none⟩ :: r.1, r.2.1, r.2.2)
      | _ :: _ =>
        ([], l :: rest, pos)

/-- The remainder returned by `parseHunkBody` is never longer than the
input. -/
theorem parseHunkBody_length_le (old0 new0 : Nat) :
    ∀ (ls : List String) (pos : Nat),
      (parseHunkBody old0 new0 ls pos).2.1.length ≤ ls.length := by
  intro ls
  induction ls generalizing old0 new0 with
  | nil => intro pos; simp [parseHunkBody]
  | cons l rest ih =>
    intro pos
    have hsucc : ∀ o n p,
        (parseHunkBody o n rest p).2.1.length ≤ rest.length + 1 :=
      fun o n p => Nat.le_trans (ih o n p) (Nat.le_succ _)
    simp only [parseHunkBody, List.length_cons]
    split
    · simp
    split
    · exact hsucc _ _ _
    split <;> first
      | (simp only [List.length_cons]; omega)
      | (simp only []; exact hsucc _ _ _)

/-- `parser.rs::strip_ab`: strip a leading `a/` or `b/`. -/
def strip_ab (path : String) : String :=
  match stripPre path "a/" with
  | some s => s
  | none =>
    match stripPre path "b/" with
    | some s => s
    | none => path

/-- Accumulator of the header loop of `parser.rs::parse_file_block`. -/
structure HeaderAcc where
  old_path : Option String
  new_path : Option String
  status : FileStatus
  is_binary : Bool
deriving DecidableEq, Repr

/-- A `--- PATH` or `+++ PATH` value: `/dev/null` means absent, otherwise
the path with a leading `a/` or `b/` stripped. -/
def headerPath (path : String) : Option String :=
  if path = "/dev/null" then none else some (strip_ab path)

/-- One step of the header loop: fold a header line into the accumulator
(unrecognized lines are ignored). -/
def headerStep (acc : HeaderAcc) (line : String) : HeaderAcc :=
  match stripPre line "--- " with
  | some path => { acc with old_path := headerPath path }
  | none =>
  match stripPre line "+++ " with
  | some path => { acc with new_path := headerPath path }
  | none =>
  if strStartsWith line "new file mode" then { acc with status := .Added }
  else if strStartsWith line "deleted file mode" then { acc with status := .Deleted }
  else
  match stripPre line "rename from " with
  | some from_p => { acc with status := .Renamed, old_path := some from_p }
  | none =>
  match stripPre line "rename to " with
  | some to_p => { acc with status := .Renamed, new_path := some to_p }
  | none =>
  if strStartsWith line "Binary files " then { acc with is_binary := true }
  else acc

/-- The header loop of `parser.rs::parse_file_block`: consume header lines
until the first hunk header or the end of the block, returning the
accumulator, the remaining lines and the index of the first remaining
line. -/
def scanHeader (acc : HeaderAcc) : List String → Nat → (HeaderAcc × List String × Nat)
  | [], pos => (acc, [], pos)
  | l :: rest, pos =>
    if strStartsWith l "@@ " then
      (acc, l :: rest, pos)
    else
      scanHeader (headerStep acc l) rest (pos + 1)

/-- The hunk loop of `parser.rs::parse_file_block`: at each `@@ ` line parse
a hunk header and its body; skip any other line. `global_offset` is the
index of the block's first line within the whole input. The loop consumes
at least the header line on each iteration, so running it with the length
of the remaining line list as fuel (as `parse_file_block` does) never
exhausts the fuel: the fuel only makes the recursion structural. -/
def parseHunks (global_offset : Nat) :
    Nat → List String → Nat → Except ParseError (List Hunk)
  | _, [], _ => Except.ok []
  | 0, _ :: _, _ => Except.ok []
  | fuel + 1, l :: rest, pos =>
    if strStartsWith l "@@ " then
      match parse_hunk_header l (global_offset + pos) with
      | Except.error e => Except.error e
      | Except.ok (old_start, old_count, new_start, new_count, context) =>
        let body := parseHunkBody old_start new_start rest (pos + 1)
        match parseHunks global_offset fuel body.2.1 body.2.2 with
        | Except.error e => Except.error e
        | Except.ok hunks =>
          Except.ok (⟨old_start, old_count, new_start, new_count, context,
            body.1⟩ :: hunks)
    else
      parseHunks global_offset fuel rest (pos + 1)

/-- `parser.rs::parse_file_block`: one block from a `diff --git ` line to
the next. -/
def parse_file_block (block : List String) (global_offset : Nat) :
    Except ParseError FileDiff :=
  let scanned := scanHeader ⟨none, none, .Modified, false⟩ (block.drop 1) 1
  let status :=
    if scanned.1.is_binary then FileStatus.Binary else scanned.1.status
  match parseHunks global_offset scanned.2.1.length scanned.2.1 scanned.2.2 with
  | Except.error e => Except.error e
  | Except.ok hunks =>
    Except.ok ⟨scanned.1.old_path, scanned.1.new_path, status, hunks⟩

/-- The start indices of the `diff --git ` blocks. -/
def blockStarts (lines : List String) : List Nat :=
  ((List.range lines.length).zip lines).filterMap
    (fun p => if strStartsWith p.2 "diff --git " then some p.1 else none)

/-- One iteration of the block loop of `parser.rs::parse_diff`: parse each
`(start, end)` block slice in order, stopping at the first error. -/
def parseBlocks (lines : List String) :
    List (Nat × Nat) → Except ParseError (List FileDiff)
  | [] => Except.ok []
  | (s, e) :: rest =>
    match parse_file_block ((lines.drop s).take (e - s)) s with
    | Except.error err => Except.error err
    | Except.ok fd =>
      match parseBlocks lines rest with
      | Except.error err => Except.error err
      | Except.ok fds => Except.ok (fd :: fds)

/-- `parser.rs::parse_diff` over a pre-split list of input lines: find every
`diff --git ` line and parse each block (extending to the next block start
or the end of the input) in order, stopping at the first error. -/
def parseDiffLines (lines : List String) : Except ParseError (List FileDiff) :=
  if (blockStarts lines).isEmpty then
    Except.ok []
  else
    parseBlocks lines
      ((blockStarts lines).zip ((blockStarts lines).drop 1 ++ [lines.length]))

/-- `parser.rs::parse_diff`. -/
def parse_diff (input : String) : Except ParseError (List FileDiff) :=
  if input.data.isEmpty then Except.ok []
  else parseDiffLines (rustLines input)

/-! ## Interdiff engine (`interdiff.rs`) -/

/-- `interdiff.rs::reconstruct_from_hunks`: apply hunks to a base body,
emitting the new side. The result is newline-terminated per line. -/
def reconstruct_from_hunks (base_content : String) (hunks : List Hunk) : String :=
  let base_lines := rustLines base_content
  let step : (String × Nat) → Hunk → (String × Nat) := fun st hunk =>
    let hunk_start := if hunk.old_start > 0 then hunk.old_start - 1 else 0
    let copied := ((base_lines.drop st.2).take (hunk_start - st.2)).foldl
      (fun r l => r ++ l ++ "\n") st.1
    let applied := hunk.lines.foldl
      (fun r l => match l.kind with
        | .Removed => r
        | _ => r ++ l.content ++ "\n") copied
    (applied, hunk_start + hunk.old_count)
  let after := hunks.foldl step ("", 0)
  (base_lines.drop after.2).foldl (fun r l => r ++ l ++ "\n") after.1

/-- The tag of one change reported by the `similar` crate's text diff. -/
inductive ChangeTag where
  | Equal
  | Delete
  | Insert
deriving DecidableEq, Repr

/-- One change reported by the text diff: its tag, the changed line (with
line terminator) and its 0-based indices on the two sides. -/
structure Change where
  tag : ChangeTag
  value : String
  old_index : Option Nat
  new_index : Option Nat
deriving DecidableEq, Repr

/-- The external grouped text diff (`similar::TextDiff::from_lines` followed
by `grouped_ops(3)` and `iter_changes`), abstracted as a function from the
two bodies to the list of change groups. -/
def DiffBackend : Type := String → String → List (List Change)

/-- Rust `str::trim_end_matches('\n')`. -/
def trimEndNL (s : String) : String :=
  ⟨(s.data.reverse.dropWhile (fun c => c = '\n')).reverse⟩

/-- Accumulator of the per-group loop in `interdiff.rs::compute_interdiff`. -/
structure GroupAcc where
  lines : List DiffLine
  old_start : Nat
  old_count : Nat
  new_count : Nat
  new_start : Nat
  first : Bool
deriving DecidableEq, Repr

/-- One iteration of the change loop in `interdiff.rs::compute_interdiff`. -/
def changeStep (st : GroupAcc) (c : Change) : GroupAcc :=
  let content := trimEndNL c.value
  let st :=
    if st.first then
      { st with
        old_start := c.old_index.getD 0 + 1
        new_start := c.new_index.getD 0 + 1
        first := false }
    else st
  match c.tag with
  | .Equal =>
    { st with
      old_count := st.old_count + 1
      new_count := st.new_count + 1
      lines := st.lines ++
        [⟨.Context, content, some (st.old_start + st.old_count),
          some (st.new_start + st.new_count)⟩] }
  | .Delete =>
    { st with
      old_count := st.old_count + 1
      lines := st.lines ++
        [⟨.Removed, content, some (st.old_start + st.old_count), none⟩] }
  | .Insert =>
    { st with
      new_count := st.new_count + 1
      lines := st.lines ++
        [⟨.Added, content, none, some (st.new_start + st.new_count)⟩] }

/-- Convert one change group into a hunk (`none` when the group produced no
lines, mirroring the `if !lines.is_empty()` push). -/
def groupToHunk (g : List Change) : Option Hunk :=
  let st := g.foldl changeStep ⟨[], 0, 0, 0, 0, true⟩
  if st.lines.isEmpty then none
  else some ⟨st.old_start, st.old_count, st.new_start, st.new_count, none, st.lines⟩

/-- `interdiff.rs::compute_interdiff`, parameterized by the external text
diff backend `d`. -/
def compute_interdiff (d : DiffBackend) (base_content : String)
    (from_hunks to_hunks : List Hunk) : List Hunk :=
  let from_content := reconstruct_from_hunks base_content from_hunks
  let to_content := reconstruct_from_hunks base_content to_hunks
  (d from_content to_content).filterMap groupToHunk

/-- The contract of the text diff that the interdiff identity relies on:
diffing a body against itself reports only `Equal` changes. -/
def EqualOnRefl (d : DiffBackend) : Prop :=
  ∀ s : String, ∀ g ∈ d s s, ∀ c ∈ g, c.tag = ChangeTag.Equal

/-! ## File body reconstruction (`routes/files.rs`) -/

/-- The old-side inserts performed by
`files.rs::reconstruct_file_contents`: `Context` and `Removed` lines with an
`old_line_no`, in program order. -/
def oldInserts (hunks : List Hunk) : List (Nat × String) :=
  (hunks.map (fun h => h.lines.filterMap (fun l =>
    match l.kind with
    | .Context => l.old_line_no.map (fun n => (n, l.content))
    | .Removed => l.old_line_no.map (fun n => (n, l.content))
    | .Added => none))).flatten

/-- The new-side inserts performed by
`files.rs::reconstruct_file_contents`: `Context` and `Added` lines with a
`new_line_no`, in program order. -/
def newInserts (hunks : List Hunk) : List (Nat × String) :=
  (hunks.map (fun h => h.lines.filterMap (fun l =>
    match l.kind with
    | .Context => l.new_line_no.map (fun n => (n, l.content))
    | .Removed => none
    | .Added => l.new_line_no.map (fun n => (n, l.content))))).flatten

/-- The final `BTreeMap` lookup after a sequence of inserts: the last write
to a key wins. -/
def mapLookupLast (ins : List (Nat × String)) (k : Nat) : Option String :=
  (ins.reverse.find? (fun p => p.1 == k)).map (fun p => p.2)

/-- Maximum of a list of naturals, 0 when empty (Rust
`iterator.max().unwrap_or(0)`). -/
def natListMax (l : List Nat) : Nat := l.foldr max 0

/-- `lines.keys().max()` over the final map. -/
def mapMax (ins : List (Nat × String)) : Nat := natListMax (ins.map (fun p => p.1))

/-- The `to_content` closure of `files.rs::reconstruct_file_contents`: line
`i` of the output is the mapped line when present and empty otherwise, for
`i` from 1 to the maximum mapped line, each followed by `'\n'`. -/
def toContentStr (ins : List (Nat × String)) : String :=
  if ins.isEmpty then ""
  else
    ((List.range' 1 (mapMax ins)).map
      (fun i => ((mapLookupLast ins i).getD "") ++ "\n")).foldl (· ++ ·) ""

/-- `files.rs::reconstruct_file_contents`: the (old, new) bodies
reconstructed from a hunk list alone. -/
def reconstruct_file_contents (hunks : List Hunk) : String × String :=
  (toContentStr (oldInserts hunks), toContentStr (newInserts hunks))

/-- The physical lines of the reconstructed old body (what a per-line
highlighter of the old body is indexed against). -/
def oldBodyLines (hunks : List Hunk) : List String :=
  rustLines (reconstruct_file_contents hunks).1

/-- The physical lines of the reconstructed new body. -/
def newBodyLines (hunks : List Hunk) : List String :=
  rustLines (reconstruct_file_contents hunks).2

/-! ## Review data model (`review.rs`)

Identifiers (`Uuid`) are modelled as `Nat`; timestamps as `Nat` instants
supplied by the caller (`Utc::now()`). -/

/-- `review.rs::ReviewStatus`. -/
inductive ReviewStatus where
  | Open
  | Closed
deriving DecidableEq, Repr

/-- `review.rs::ThreadOrigin`. -/
inductive ThreadOrigin where
  | Comment
  | ExplanationRequest
  | AgentExplanation
deriving DecidableEq, Repr

/-- `review.rs::ThreadStatus`. -/
inductive ThreadStatus where
  | Open
  | Resolved
deriving DecidableEq, Repr

/-- `review.rs::AuthorType`. -/
inductive AuthorType where
  | Human
  | Agent
deriving DecidableEq, Repr

/-- `review.rs::RevisionTrigger`. -/
inductive RevisionTrigger where
  | Agent
  | Manual
deriving DecidableEq, Repr

/-- `review.rs::ContentSnippet`. -/
structure ContentSnippet where
  lines : List String
  context_before : List String
  context_after : List String
deriving DecidableEq, Repr

/-- `review.rs::Revision`. -/
structure Revision where
  id : Nat
  review_id : Nat
  revision_number : Nat
  trigger : RevisionTrigger
  message : Option String
  files : List FileDiff
  created_at : Nat
deriving DecidableEq, Repr

/-- `review.rs::Review`. -/
structure Review where
  id : Nat
  title : Option String
  status : ReviewStatus
  created_at : Nat
  updated_at : Nat
  repo_path : String
  base_ref : String
deriving DecidableEq, Repr

/-- `review.rs::Comment`. -/
structure Comment where
  id : Nat
  author_type : AuthorType
  body : String
  created_at : Nat
deriving DecidableEq, Repr

/-- `review.rs::CommentThread`. -/
structure CommentThread where
  id : Nat
  review_id : Nat
  file_path : String
  line_start : Nat
  line_end : Nat
  origin : ThreadOrigin
  status : ThreadStatus
  comments : List Comment
  created_at : Nat
  updated_at : Nat
  revision_number : Option Nat
  content_snippet : Option ContentSnippet
deriving DecidableEq, Repr

/-- `review.rs::AgentStatus` (the per-thread ephemeral tag). -/
inductive AgentStatus where
  | Seen
  | Working
deriving DecidableEq, Repr

/-! ## Keyed tables

`HashMap<Uuid, V>` is modelled as an association list of key/value pairs;
insertion replaces an existing key and otherwise appends. -/

/-- `HashMap::get`. -/
def lookupK {α : Type} (m : List (Nat × α)) (k : Nat) : Option α :=
  (m.find? (fun p => p.1 == k)).map (fun p => p.2)

/-- `HashMap::contains_key`. -/
def containsK {α : Type} (m : List (Nat × α)) (k : Nat) : Bool :=
  (lookupK m k).isSome

/-- `HashMap::insert`. -/
def insertK {α : Type} (m : List (Nat × α)) (k : Nat) (v : α) : List (Nat × α) :=
  if containsK m k then m.map (fun p => if p.1 == k then (k, v) else p)
  else m ++ [(k, v)]

/-- `HashMap::remove` (dropping the returned value). -/
def removeK {α : Type} (m : List (Nat × α)) (k : Nat) : List (Nat × α) :=
  m.filter (fun p => !(p.1 == k))

/-- Update the value at a key when present (`HashMap::get_mut` followed by a
mutation). -/
def modifyK {α : Type} (m : List (Nat × α)) (k : Nat) (f : α → α) : List (Nat × α) :=
  m.map (fun p => if p.1 == k then (p.1, f p.2) else p)

/-! ## Snapshot store (`json_store.rs`)

The in-memory `State` behind the single lock. Each operation mirrors the
corresponding `JsonFileStore` method; the snapshot write (`persist`) only
performs I/O and is modelled as succeeding, so the `PersistenceError` paths
coming from the filesystem are outside the model. Fresh `Uuid::new_v4`
identifiers and `Utc::now()` instants are passed in as arguments. -/

/-- `json_store.rs::State`. -/
structure StoreState where
  reviews : List (Nat × Review)
  threads : List (Nat × CommentThread)
  revisions : List (Nat × Revision)
deriving DecidableEq, Repr

/-- `State::default()`. -/
def emptyStore : StoreState := ⟨[], [], []⟩

/-- `store.rs::StoreError`. -/
inductive StoreError where
  | ReviewNotFound (id : Nat)
  | ThreadNotFound (id : Nat)
  | RevisionNotFound (id : Nat)
  | PersistenceError (msg : String)
deriving DecidableEq, Repr

/-- `store.rs::CreateReviewInput`. -/
structure CreateReviewInput where
  title : Option String
  repo_path : String
  base_ref : String
deriving DecidableEq, Repr

/-- `store.rs::CreateThreadInput`. -/
structure CreateThreadInput where
  review_id : Nat
  file_path : String
  line_start : Nat
  line_end : Nat
  origin : ThreadOrigin
  initial_comment_body : String
  initial_comment_author : AuthorType
  revision_number : Option Nat
  content_snippet : Option ContentSnippet
deriving DecidableEq, Repr

/-- `store.rs::CreateRevisionInput`. -/
structure CreateRevisionInput where
  review_id : Nat
  trigger : RevisionTrigger
  message : Option String
  files : List FileDiff
deriving DecidableEq, Repr

/-- `store.rs::AddCommentInput`. -/
structure AddCommentInput where
  thread_id : Nat
  author_type : AuthorType
  body : String
deriving DecidableEq, Repr

/-- `JsonFileStore::create_review`. -/
def create_review (s : StoreState) (id now : Nat) (input : CreateReviewInput) :
    StoreState × Review :=
  let review : Review :=
    ⟨id, input.title, .Open, now, now, input.repo_path, input.base_ref⟩
  ({ s with reviews := insertK s.reviews id review }, review)

/-- `JsonFileStore::get_review`. -/
def get_review (s : StoreState) (id : Nat) : Except StoreError Review :=
  match lookupK s.reviews id with
  | some r => Except.ok r
  | none => Except.error (.ReviewNotFound id)

/-- `JsonFileStore::update_review_status`. -/
def update_review_status (s : StoreState) (id : Nat) (status : ReviewStatus)
    (now : Nat) : Except StoreError StoreState :=
  match lookupK s.reviews id with
  | none => Except.error (.ReviewNotFound id)
  | some _ =>
    Except.ok { s with
      reviews := modifyK s.reviews id
        (fun r => { r with status := status, updated_at := now }) }

/-- Remove a review and retain only threads and revisions of other reviews
(the body of `JsonFileStore::delete_review` and of each iteration of
`delete_closed_reviews`). -/
def removeReviewDeps (s : StoreState) (id : Nat) : StoreState :=
  { reviews := removeK s.reviews id
    threads := s.threads.filter (fun p => !(p.2.review_id == id))
    revisions := s.revisions.filter (fun p => !(p.2.review_id == id)) }

/-- `JsonFileStore::delete_review`. -/
def delete_review (s : StoreState) (id : Nat) : Except StoreError StoreState :=
  if containsK s.reviews id then Except.ok (removeReviewDeps s id)
  else Except.error (.ReviewNotFound id)

/-- `JsonFileStore::delete_closed_reviews`. -/
def delete_closed_reviews (s : StoreState) : StoreState × List Nat :=
  let closed_ids := (s.reviews.filter (fun p => p.2.status == .Closed)).map (fun p => p.1)
  if closed_ids.isEmpty then (s, [])
  else (closed_ids.foldl removeReviewDeps s, closed_ids)

/-- `JsonFileStore::create_thread`. -/
def create_thread (s : StoreState) (thread_id comment_id now : Nat)
    (input : CreateThreadInput) : Except StoreError (StoreState × CommentThread) :=
  if !(containsK s.reviews input.review_id) then
    Except.error (.ReviewNotFound input.review_id)
  else
    let initial_comment : Comment :=
      ⟨comment_id, input.initial_comment_author, input.initial_comment_body, now⟩
    let thread : CommentThread :=
      ⟨thread_id, input.review_id, input.file_path, input.line_start,
        input.line_end, input.origin, .Open, [initial_comment], now, now,
        input.revision_number, input.content_snippet⟩
    Except.ok ({ s with threads := insertK s.threads thread_id thread }, thread)

/-- `JsonFileStore::get_thread`. -/
def get_thread (s : StoreState) (thread_id : Nat) : Except StoreError CommentThread :=
  match lookupK s.threads thread_id with
  | some t => Except.ok t
  | none => Except.error (.ThreadNotFound thread_id)

/-- `JsonFileStore::get_threads`. -/
def get_threads (s : StoreState) (review_id : Nat) (file_path : Option String) :
    Except StoreError (List CommentThread) :=
  if !(containsK s.reviews review_id) then
    Except.error (.ReviewNotFound review_id)
  else
    Except.ok ((s.threads.map (fun p => p.2)).filter
      (fun t => t.review_id == review_id &&
        (match file_path with
         | none => true
         | some fp => t.file_path == fp)))

/-- `JsonFileStore::update_thread_status`. -/
def update_thread_status (s : StoreState) (thread_id : Nat) (status : ThreadStatus)
    (now : Nat) : Except StoreError StoreState :=
  match lookupK s.threads thread_id with
  | none => Except.error (.ThreadNotFound thread_id)
  | some _ =>
    Except.ok { s with
      threads := modifyK s.threads thread_id
        (fun t => { t with status := status, updated_at := now }) }

/-- `JsonFileStore::add_comment`. -/
def add_comment (s : StoreState) (comment_id now : Nat) (input : AddCommentInput) :
    Except StoreError (StoreState × Comment) :=
  match lookupK s.threads input.thread_id with
  | none => Except.error (.ThreadNotFound input.thread_id)
  | some _ =>
    let comment : Comment := ⟨comment_id, input.author_type, input.body, now⟩
    Except.ok
      ({ s with
          threads := modifyK s.threads input.thread_id
            (fun t => { t with comments := t.comments ++ [comment], updated_at := now }) },
        comment)

/-- The revisions of one review, in table order. -/
def revsOf (s : StoreState) (review_id : Nat) : List Revision :=
  (s.revisions.map (fun p => p.2)).filter (fun r => r.review_id == review_id)

/-- The revision numbers of one review, in table order. -/
def revNums (s : StoreState) (review_id : Nat) : List Nat :=
  (revsOf s review_id).map (fun r => r.revision_number)

/-- The `next_number` computation of `JsonFileStore::create_revision`:
one more than the maximum existing revision number for the review
(`max().unwrap_or(0) + 1`). -/
def nextRevisionNumber (s : StoreState) (review_id : Nat) : Nat :=
  natListMax (revNums s review_id) + 1

/-- `JsonFileStore::create_revision`. -/
def create_revision (s : StoreState) (id now : Nat) (input : CreateRevisionInput) :
    Except StoreError (StoreState × Revision) :=
  if !(containsK s.reviews input.review_id) then
    Except.error (.ReviewNotFound input.review_id)
  else
    let revision : Revision :=
      ⟨id, input.review_id, nextRevisionNumber s input.review_id, input.trigger,
        input.message, input.files, now⟩
    Except.ok ({ s with revisions := insertK s.revisions id revision }, revision)

/-- `JsonFileStore::get_revisions`: the review's revisions sorted by
`revision_number` (a stable sort, like Rust `sort_by_key`). -/
def get_revisions (s : StoreState) (review_id : Nat) :
    Except StoreError (List Revision) :=
  if !(containsK s.reviews review_id) then
    Except.error (.ReviewNotFound review_id)
  else
    Except.ok ((revsOf s review_id).mergeSort
      (fun a b => a.revision_number ≤ b.revision_number))

/-- `JsonFileStore::get_revision`. -/
def get_revision (s : StoreState) (review_id revision_number : Nat) :
    Except StoreError Revision :=
  if !(containsK s.reviews review_id) then
    Except.error (.ReviewNotFound review_id)
  else
    match (s.revisions.map (fun p => p.2)).find?
      (fun r => r.review_id == review_id && r.revision_number == revision_number) with
    | some r => Except.ok r
    | none => Except.error (.RevisionNotFound review_id)

/-- Rust `Iterator::max_by_key`: the last of the maximal elements. -/
def maxByRevNum (l : List Revision) : Option Revision :=
  l.foldl
    (fun best r =>
      match best with
      | none => some r
      | some b => if b.revision_number ≤ r.revision_number then some r else some b)
    none

/-- `JsonFileStore::get_latest_revision`. -/
def get_latest_revision (s : StoreState) (review_id : Nat) :
    Except StoreError Revision :=
  if !(containsK s.reviews review_id) then
    Except.error (.ReviewNotFound review_id)
  else
    match maxByRevNum (revsOf s review_id) with
    | some r => Except.ok r
    | none => Except.error (.RevisionNotFound review_id)

/-- The store states reachable from the empty store by a sequence of store
operations. Generated identifiers model `Uuid::new_v4()` and are therefore
fresh for their table; timestamps are arbitrary. -/
inductive Reachable : StoreState → Prop
  | empty : Reachable emptyStore
  | create_review (s : StoreState) (id now : Nat) (input : CreateReviewInput)
      (h : Reachable s) (hfresh : lookupK s.reviews id = none) :
      Reachable (create_review s id now input).1
  | update_review_status (s : StoreState) (id : Nat) (status : ReviewStatus)
      (now : Nat) (s' : StoreState) (h : Reachable s)
      (hok : update_review_status s id status now = Except.ok s') : Reachable s'
  | delete_review (s : StoreState) (id : Nat) (s' : StoreState) (h : Reachable s)
      (hok : delete_review s id = Except.ok s') : Reachable s'
  | delete_closed_reviews (s : StoreState) (h : Reachable s) :
      Reachable (delete_closed_reviews s).1
  | create_thread (s : StoreState) (thread_id comment_id now : Nat)
      (input : CreateThreadInput) (s' : StoreState) (t : CommentThread)
      (h : Reachable s) (hfresh : lookupK s.threads thread_id = none)
      (hok : create_thread s thread_id comment_id now input = Except.ok (s', t)) :
      Reachable s'
  | update_thread_status (s : StoreState) (thread_id : Nat) (status : ThreadStatus)
      (now : Nat) (s' : StoreState) (h : Reachable s)
      (hok : update_thread_status s thread_id status now = Except.ok s') :
      Reachable s'
  | add_comment (s : StoreState) (comment_id now : Nat) (input : AddCommentInput)
      (s' : StoreState) (c : Comment) (h : Reachable s)
      (hok : add_comment s comment_id now input = Except.ok (s', c)) : Reachable s'
  | create_revision (s : StoreState) (id now : Nat) (input : CreateRevisionInput)
      (s' : StoreState) (r : Revision) (h : Reachable s)
      (hfresh : lookupK s.revisions id = none)
      (hok : create_revision s id now input = Except.ok (s', r)) : Reachable s'

/-! ## HTTP surface (`error.rs`, `ws.rs`, `routes/*.rs`)

The git subprocess is abstracted by its outcome: the actions below take the
diff text (or the already-parsed file list) that a successful
`git diff` invocation produced. Generated identifiers and timestamps are
again arguments. -/

/-- `error.rs::ApiError`. -/
inductive ApiError where
  | NotFound (msg : String)
  | BadRequest (msg : String)
  | Internal (msg : String)
deriving DecidableEq, Repr

/-- `From<StoreError> for ApiError` (messages elided; only the constructor
mapping is relevant). -/
def apiOfStore : StoreError → ApiError
  | .ReviewNotFound _ => .NotFound "review not found"
  | .ThreadNotFound _ => .NotFound "thread not found"
  | .PersistenceError msg => .Internal msg
  | .RevisionNotFound _ => .Internal "revision not found"

/-- `ws.rs::WsEventType` (`preflight-core`). -/
inductive WsEventType where
  | ReviewCreated
  | ReviewStatusChanged
  | ReviewDeleted
  | RevisionCreated
  | ThreadCreated
  | CommentAdded
  | ThreadStatusChanged
  | ThreadAcknowledged
  | ThreadPoked
  | RevisionRequested
  | AgentPresenceChanged
deriving DecidableEq, Repr

/-- The parse step of `git_diff.rs::diff_against_base` (lines 97–98): the
diff text of a successful `git diff` run is parsed and a parse failure is
replaced by the empty file list (`unwrap_or_default`). -/
def diff_against_base_files (diff_text : String) : List FileDiff :=
  match parse_diff diff_text with
  | Except.ok files => files
  | Except.error _ => []

/-- `routes/reviews.rs::CreateReviewRequest`. -/
structure CreateReviewRequest where
  title : Option String
  repo_path : String
  base_ref : String
deriving DecidableEq, Repr

/-- The observable outcome of the `create_review` route: the final store
state, the id of the created review, the files of revision 1, and the
events published. -/
structure CreateReviewOut where
  state : StoreState
  review_id : Nat
  revision_files : List FileDiff
  events : List WsEventType
deriving DecidableEq, Repr

/-- `routes/reviews.rs::create_review`, given the diff text produced by a
successful `git diff` run in a valid repository: parse (swallowing parse
errors), create the review, create revision 1 with `trigger = Manual`, and
publish `ReviewCreated`. -/
def createReviewAction (s : StoreState) (diff_text : String)
    (req : CreateReviewRequest) (review_id revision_id now : Nat) :
    Except ApiError CreateReviewOut :=
  let files := diff_against_base_files diff_text
  let created := create_review s review_id now ⟨req.title, req.repo_path, req.base_ref⟩
  match create_revision created.1 revision_id now
      ⟨created.2.id, .Manual, none, files⟩ with
  | Except.error e => Except.error (apiOfStore e)
  | Except.ok (s2, revision) =>
    match get_threads s2 created.2.id none with
    | Except.error e => Except.error (apiOfStore e)
    | Except.ok _threads =>
      Except.ok ⟨s2, created.2.id, revision.files, [.ReviewCreated]⟩

/-- The effective path used by the revision-comparison and file routes:
`new_path` else `old_path` else the empty string
(`unwrap_or_else`/`unwrap_or_default`). -/
def effectivePath (f : FileDiff) : String :=
  f.new_path.getD (f.old_path.getD "")

/-- The per-line comparison of the no-change check. -/
def lineEqB (a b : DiffLine) : Bool :=
  a.content == b.content && a.kind == b.kind

/-- The per-hunk comparison of the no-change check. -/
def hunkEqB (a b : Hunk) : Bool :=
  a.old_start == b.old_start && a.new_start == b.new_start &&
  a.old_count == b.old_count && a.new_count == b.new_count &&
  a.lines.length == b.lines.length &&
  (a.lines.zip b.lines).all (fun ll => lineEqB ll.1 ll.2)

/-- All hunks of a file list flattened in file order (the
`flat_map(|f| &f.hunks)` of the comparison). -/
def flatHunks (files : List FileDiff) : List Hunk :=
  (files.map (fun f => f.hunks)).flatten

/-- The structural no-change comparison of `routes/revisions.rs`
(lines 29–68): same effective path set, same file count, same flattened
hunk count, and positionally matched hunks identical in
`old_start`/`new_start`/`old_count`/`new_count` and in per-line
`content` and `kind`. -/
def noChangesB (oldFiles newFiles : List FileDiff) : Bool :=
  let old_paths := oldFiles.map effectivePath
  let new_paths := newFiles.map effectivePath
  old_paths.all (fun p => new_paths.contains p) &&
  new_paths.all (fun p => old_paths.contains p) &&
  oldFiles.length == newFiles.length &&
  (let old_hunks := flatHunks oldFiles
   let new_hunks := flatHunks newFiles
   old_hunks.length == new_hunks.length &&
   (old_hunks.zip new_hunks).all (fun ab => hunkEqB ab.1 ab.2))

/-- `routes/revisions.rs::create_revision`, given the file list produced by
a successful `git diff` run at the review's stored base ref: load the
review, compare against the latest revision when one exists, reject a
structurally identical list as BadRequest, and otherwise insert. The
handler publishes no event. -/
def createRevisionAction (s : StoreState) (review_id : Nat)
    (files : List FileDiff) (trigger : RevisionTrigger) (message : Option String)
    (revision_id now : Nat) :
    Except ApiError (StoreState × Revision × List WsEventType) :=
  match get_review s review_id with
  | Except.error e => Except.error (apiOfStore e)
  | Except.ok _review =>
    let insert :=
      match create_revision s revision_id now ⟨review_id, trigger, message, files⟩ with
      | Except.error e => Except.error (apiOfStore e)
      | Except.ok (s', revision) => Except.ok (s', revision, ([] : List WsEventType))
    match get_latest_revision s review_id with
    | Except.ok latest =>
      if noChangesB latest.files files then
        Except.error (.BadRequest "no changes detected since last revision")
      else insert
    | Except.error _ => insert

/-- `routes/comments.rs::add_comment`: append the comment to the thread,
then clear the thread's in-memory agent-status entry; publish
`CommentAdded` when the thread is still readable. -/
def addCommentAction (s : StoreState) (agent_status : List (Nat × AgentStatus))
    (thread_id : Nat) (author_type : AuthorType) (body : String)
    (comment_id now : Nat) :
    Except ApiError (StoreState × List (Nat × AgentStatus) × Comment × List WsEventType) :=
  match add_comment s comment_id now ⟨thread_id, author_type, body⟩ with
  | Except.error e => Except.error (apiOfStore e)
  | Except.ok (s', comment) =>
    let agent_status' := removeK agent_status thread_id
    let events :=
      match get_thread s' thread_id with
      | Except.ok _ => [WsEventType.CommentAdded]
      | Except.error _ => []
    Except.ok (s', agent_status', comment, events)

/-! ## Agent presence tracker (`state.rs`)

`PresenceState::disconnect_handle` is a cancellable scheduled task; only
its presence matters to `register`, so it is modelled as a `Bool`. -/

/-- `state.rs::PresenceState`. -/
structure PresenceState where
  connected : Bool
  pending_disconnect : Bool
deriving DecidableEq, Repr

/-- The payload of an `AgentPresenceChanged` event: the review and the new
`connected` flag. -/
structure PresenceEvent where
  review_id : Nat
  connected : Bool
deriving DecidableEq, Repr

/-- `AgentPresenceTracker::register`: ensure an entry exists, cancel any
pending disconnect, set `connected`, and publish
`AgentPresenceChanged{connected: true}` only on a transition from
disconnected. Returns the new map and the published events. -/
def register (m : List (Nat × PresenceState)) (review_id : Nat) :
    List (Nat × PresenceState) × List PresenceEvent :=
  let entry := (lookupK m review_id).getD ⟨false, false⟩
  let was_connected := entry.connected
  let m' := insertK m review_id ⟨true, false⟩
  (m', if was_connected then [] else [⟨review_id, true⟩])

/-- `AgentPresenceTracker::is_connected`. -/
def is_connected (m : List (Nat × PresenceState)) (review_id : Nat) : Bool :=
  ((lookupK m review_id).map (fun s => s.connected)).getD false

/-! ## Keyed-table lemmas -/

theorem lookupK_nil {α : Type} (k : Nat) : lookupK ([] : List (Nat × α)) k = none := rfl

theorem lookupK_map_replace {α : Type} (m : List (Nat × α)) (k : Nat) (v : α)
    (h : containsK m k = true) :
    lookupK (m.map (fun p => if p.1 == k then (k, v) else p)) k = some v := by
  induction m with
  | nil => simp [containsK, lookupK] at h
  | cons p m ih =>
    by_cases hp : p.1 = k
    · simp [lookupK, List.find?, hp]
    · have hp' : (p.1 == k) = false := by simp [hp]
      simp only [List.map_cons, hp', if_neg, Bool.false_eq_true, not_false_iff, ite_false]
      have hm : containsK m k = true := by
        simpa [containsK, lookupK, List.find?, hp'] using h
      simpa [lookupK, List.find?, hp'] using ih hm

theorem lookupK_insertK_self {α : Type} (m : List (Nat × α)) (k : Nat) (v : α) :
    lookupK (insertK m k v) k = some v := by
  unfold insertK
  by_cases h : containsK m k = true
  · rw [if_pos h]
    exact lookupK_map_replace m k v h
  · rw [if_neg h]
    have hfind : m.find? (fun p => p.1 == k) = none := by
      have : (lookupK m k).isSome = false := by
        simpa [containsK] using h
      unfold lookupK at this
      cases hf : m.find? (fun p => p.1 == k) with
      | none => rfl
      | some p => rw [hf] at this; simp at this
    simp [lookupK, List.find?_append, hfind, List.find?]

theorem containsK_insertK_self {α : Type} (m : List (Nat × α)) (k : Nat) (v : α) :
    containsK (insertK m k v) k = true := by
  simp [containsK, lookupK_insertK_self]

theorem insertK_of_not_contains {α : Type} (m : List (Nat × α)) (k : Nat) (v : α)
    (h : lookupK m k = none) : insertK m k v = m ++ [(k, v)] := by
  unfold insertK
  rw [if_neg]
  simp [containsK, h]

theorem lookupK_removeK_self {α : Type} (m : List (Nat × α)) (k : Nat) :
    lookupK (removeK m k) k = none := by
  unfold lookupK removeK
  rw [List.find?_eq_none.mpr]
  · rfl
  · intro p hp
    have := List.of_mem_filter hp
    simpa using this

theorem lookupK_removeK_other {α : Type} (m : List (Nat × α)) (k k' : Nat)
    (h : k' ≠ k) : lookupK (removeK m k) k' = lookupK m k' := by
  unfold lookupK removeK
  induction m with
  | nil => rfl
  | cons p m ih =>
    rw [List.filter_cons]
    by_cases hp : p.1 = k
    · have h1 : (!(p.1 == k)) = false := by simp [hp]
      have h2 : (p.1 == k') = false := by
        simp only [beq_eq_false_iff_ne, ne_eq, hp]
        exact fun hh => h hh.symm
      rw [h1]
      simp only [Bool.false_eq_true, if_false]
      rw [List.find?_cons_of_neg _ (by simp [h2]), ih]
    · have h1 : (!(p.1 == k)) = true := by simp [hp]
      rw [h1]
      simp only [if_true]
      by_cases hp' : p.1 = k'
      · rw [List.find?_cons_of_pos _ (by simp [hp']),
          List.find?_cons_of_pos _ (by simp [hp'])]
      · rw [List.find?_cons_of_neg _ (by simp [hp']),
          List.find?_cons_of_neg _ (by simp [hp']), ih]

theorem mem_insertK_key {α : Type} (m : List (Nat × α)) (k : Nat) (v : α)
    (p : Nat × α) (hp : p ∈ insertK m k v) (hk : p.1 = k) : p = (k, v) := by
  unfold insertK at hp
  by_cases hc : containsK m k = true
  · rw [if_pos hc] at hp
    rcases List.mem_map.mp hp with ⟨q, _, hq⟩
    by_cases hqk : q.1 = k
    · have : (q.1 == k) = true := by simp [hqk]
      rw [this] at hq
      simp at hq
      exact hq.symm
    · have : (q.1 == k) = false := by simp [hqk]
      rw [this] at hq
      simp at hq
      rw [← hq] at hk
      exact absurd hk hqk
  · rw [if_neg hc] at hp
    rcases List.mem_append.mp hp with hm | hone
    · exfalso
      have hnone : m.find? (fun q => q.1 == k) = none := by
        have : (lookupK m k).isSome = false := by simpa [containsK] using hc
        unfold lookupK at this
        cases hf : m.find? (fun q => q.1 == k) with
        | none => rfl
        | some q => rw [hf] at this; simp at this
      have := List.find?_eq_none.mp hnone p hm
      simp [hk] at this
    · simpa using hone

theorem insertK_insertK_same {α : Type} (m : List (Nat × α)) (k : Nat) (v : α) :
    insertK (insertK m k v) k v = insertK m k v := by
  have hmap : (insertK m k v).map (fun p => if p.1 == k then (k, v) else p) =
      insertK m k v := by
    conv_rhs => rw [← List.map_id (insertK m k v)]
    apply List.map_congr_left
    intro p hp
    by_cases hk : p.1 = k
    · have := mem_insertK_key m k v p hp hk
      simp [hk, this]
    · have : (p.1 == k) = false := by simp [hk]
      simp [this]
  have hstep : insertK (insertK m k v) k v =
      if containsK (insertK m k v) k = true then
        (insertK m k v).map (fun p => if p.1 == k then (k, v) else p)
      else insertK m k v ++ [(k, v)] := rfl
  rw [hstep, if_pos (containsK_insertK_self m k v), hmap]

theorem natListMax_mem_le (l : List Nat) : ∀ x ∈ l, x ≤ natListMax l := by
  induction l with
  | nil => intro x hx; cases hx
  | cons a l ih =>
    intro x hx
    rcases List.mem_cons.mp hx with rfl | hx
    · exact le_max_left _ _
    · exact Nat.le_trans (ih x hx) (le_max_right _ _)

theorem natListMax_mem_or_zero (l : List Nat) :
    natListMax l ∈ l ∨ natListMax l = 0 := by
  induction l with
  | nil => exact Or.inr rfl
  | cons a l ih =>
    show max a (natListMax l) ∈ a :: l ∨ max a (natListMax l) = 0
    rcases Nat.le_total (natListMax l) a with hle | hle
    · rw [Nat.max_eq_left hle]
      exact Or.inl (List.mem_cons_self a l)
    · rw [Nat.max_eq_right hle]
      rcases ih with hm | hz
      · exact Or.inl (List.mem_cons_of_mem a hm)
      · exact Or.inr hz

theorem natListMax_of_perm_range (l : List Nat) (n : Nat)
    (h : l.Perm (List.range' 1 n)) : natListMax l = n := by
  cases n with
  | zero =>
    have : l = [] := List.Perm.eq_nil (by simpa using h)
    rw [this]; rfl
  | succ n =>
    have hmem : n + 1 ∈ l := h.mem_iff.mpr (by
      rw [List.mem_range'_1]; omega)
    have hle : n + 1 ≤ natListMax l := natListMax_mem_le l _ hmem
    rcases natListMax_mem_or_zero l with hm | hz
    · have := List.mem_range'_1.mp (h.mem_iff.mp hm)
      omega
    · omega

/-! ## C5: line sides and contiguity of parsed hunks -/

/-- The claim's correspondence between a diff line's kind and the sides it
occupies. -/
def sideOk (l : DiffLine) : Prop :=
  (l.kind = .Added → l.old_line_no = none ∧ l.new_line_no.isSome = true) ∧
  (l.kind = .Removed → l.old_line_no.isSome = true ∧ l.new_line_no = none) ∧
  (l.kind = .Context → l.old_line_no.isSome = true ∧ l.new_line_no.isSome = true)

/-- The old-side line numbers recorded in a hunk, in order. -/
def oldSideNums (h : Hunk) : List Nat :=
  h.lines.filterMap (fun l => l.old_line_no)

/-- The new-side line numbers recorded in a hunk, in order. -/
def newSideNums (h : Hunk) : List Nat :=
  h.lines.filterMap (fun l => l.new_line_no)

theorem parseHunkBody_sideOk (ls : List String) :
    ∀ (old0 new0 pos : Nat), ∀ l ∈ (parseHunkBody old0 new0 ls pos).1, sideOk l := by
  induction ls with
  | nil => intro o n pos l hl; simp [parseHunkBody] at hl
  | cons x rest ih =>
    intro o n pos l hl
    simp only [parseHunkBody] at hl
    split at hl
    · simp at hl
    · split at hl
      · exact ih _ _ _ l hl
      · split at hl
        · dsimp only at hl
          rcases List.mem_cons.mp hl with rfl | hl'
          · simp [sideOk]
          · exact ih _ _ _ l hl'
        · dsimp only at hl
          rcases List.mem_cons.mp hl with rfl | hl'
          · simp [sideOk]
          · exact ih _ _ _ l hl'
        · dsimp only at hl
          rcases List.mem_cons.mp hl with rfl | hl'
          · simp [sideOk]
          · exact ih _ _ _ l hl'
        · dsimp only at hl
          rcases List.mem_cons.mp hl with rfl | hl'
          · simp [sideOk]
          · exact ih _ _ _ l hl'
        · simp at hl

theorem range'_map_mod (M : Nat) : ∀ (k a : Nat),
    (List.range' a k).map (· % M) = (List.range' (a % M) k).map (· % M) := by
  intro k
  induction k with
  | zero => intro a; rfl
  | succ k ih =>
    intro a
    rw [List.range'_succ, List.range'_succ, List.map_cons, List.map_cons]
    congr 1
    · rw [Nat.mod_mod_of_dvd]
      exact dvd_refl M
    · rw [ih (a + 1), ih (a % M + 1), Nat.mod_add_mod]

theorem parseHunkBody_oldNums (ls : List String) :
    ∀ (old0 new0 pos : Nat), old0 < U32MOD →
      ((parseHunkBody old0 new0 ls pos).1.filterMap (fun l => l.old_line_no)) =
        (List.range' old0
          ((parseHunkBody old0 new0 ls pos).1.filterMap
            (fun l => l.old_line_no)).length).map (· % U32MOD) := by
  have hMpos : 0 < U32MOD := by decide
  induction ls with
  | nil => intro o n pos ho; simp [parseHunkBody]
  | cons x rest ih =>
    intro o n pos ho
    have hm : ∀ a : Nat, (a + 1) % U32MOD < U32MOD := fun a => Nat.mod_lt _ hMpos
    have hcons : ∀ (tl : List Nat), tl =
          (List.range' ((o + 1) % U32MOD) tl.length).map (· % U32MOD) →
        o :: tl = (List.range' o (tl.length + 1)).map (· % U32MOD) := by
      intro tl htl
      rw [List.range'_succ, List.map_cons]
      congr 1
      · rw [Nat.mod_eq_of_lt ho]
      · exact htl.trans (range'_map_mod U32MOD tl.length (o + 1)).symm
    simp only [parseHunkBody]
    split
    · simp
    split
    · exact ih _ _ _ ho
    split
    · simp only [List.filterMap_cons]
      exact hcons _ (ih _ _ _ (hm o))
    · simp only [List.filterMap_cons]
      exact hcons _ (ih _ _ _ (hm o))
    · simp only [List.filterMap_cons]
      exact ih _ _ _ ho
    · simp only [List.filterMap_cons]
      exact hcons _ (ih _ _ _ (hm o))
    · simp

theorem parseHunkBody_newNums (ls : List String) :
    ∀ (old0 new0 pos : Nat), new0 < U32MOD →
      ((parseHunkBody old0 new0 ls pos).1.filterMap (fun l => l.new_line_no)) =
        (List.range' new0
          ((parseHunkBody old0 new0 ls pos).1.filterMap
            (fun l => l.new_line_no)).length).map (· % U32MOD) := by
  have hMpos : 0 < U32MOD := by decide
  induction ls with
  | nil => intro o n pos hn; simp [parseHunkBody]
  | cons x rest ih =>
    intro o n pos hn
    have hm : ∀ a : Nat, (a + 1) % U32MOD < U32MOD := fun a => Nat.mod_lt _ hMpos
    have hcons : ∀ (tl : List Nat), tl =
          (List.range' ((n + 1) % U32MOD) tl.length).map (· % U32MOD) →
        n :: tl = (List.range' n (tl.length + 1)).map (· % U32MOD) := by
      intro tl htl
      rw [List.range'_succ, List.map_cons]
      congr 1
      · rw [Nat.mod_eq_of_lt hn]
      · exact htl.trans (range'_map_mod U32MOD tl.length (n + 1)).symm
    simp only [parseHunkBody]
    split
    · simp
    split
    · exact ih _ _ _ hn
    split
    · simp only [List.filterMap_cons]
      exact hcons _ (ih _ _ _ (hm n))
    · simp only [List.filterMap_cons]
      exact hcons _ (ih _ _ _ (hm n))
    · simp only [List.filterMap_cons]
      exact hcons _ (ih _ _ _ (hm n))
    · simp only [List.filterMap_cons]
      exact ih _ _ _ hn
    · simp

theorem parseU32_lt (s : String) (v : Nat) (h : parseU32 s = some v) :
    v < U32MOD := by
  unfold parseU32 at h
  dsimp only at h
  split at h
  · split at h
    · injection h with h'
      omega
    · cases h
  · cases h

theorem parse_range_start_lt (spec : String) (p : Char) (ln a b : Nat)
    (h : parse_range spec p ln = Except.ok (a, b)) : a < U32MOD := by
  unfold parse_range at h
  split at h
  · cases h
  · split at h
    · split at h
      · split at h
        · injection h with h'
          cases h'
          exact parseU32_lt _ _ (by assumption)
        · cases h
      · split at h
        · injection h with h'
          cases h'
          exact parseU32_lt _ _ (by assumption)
        · cases h
      · cases h
    · cases h

theorem parse_hunk_header_bounds (l : String) (n : Nat)
    (os oc ns nc : Nat) (ctx : Option String)
    (h : parse_hunk_header l n = Except.ok (os, oc, ns, nc, ctx)) :
    os < U32MOD ∧ ns < U32MOD := by
  unfold parse_hunk_header at h
  split at h
  · cases h
  · split at h
    · cases h
    · split at h
      · split at h
        · cases h
        · split at h
          · cases h
          · injection h with h'
            obtain ⟨rfl, rfl, rfl, rfl, rfl⟩ := h'
            constructor
            · exact parse_range_start_lt _ _ _ _ _ (by assumption)
            · exact parse_range_start_lt _ _ _ _ _ (by assumption)
      · cases h

/-- Every hunk produced by the hunk loop takes its lines from
`parseHunkBody` run with the hunk's own parsed `old_start`/`new_start`,
which are in `u32` range. -/
theorem parseHunks_shape (g : Nat) : ∀ (fuel : Nat) (ls : List String)
    (pos : Nat) (hunks : List Hunk),
    parseHunks g fuel ls pos = Except.ok hunks → ∀ hk ∈ hunks,
      (∃ rest p, hk.lines = (parseHunkBody hk.old_start hk.new_start rest p).1) ∧
        hk.old_start < U32MOD ∧ hk.new_start < U32MOD := by
  intro fuel
  induction fuel with
  | zero =>
    intro ls pos hunks h hk hhk
    cases ls with
    | nil =>
      injection h with h'
      rw [← h'] at hhk
      cases hhk
    | cons l rest =>
      injection h with h'
      rw [← h'] at hhk
      cases hhk
  | succ fuel ih =>
    intro ls pos hunks h hk hhk
    cases ls with
    | nil =>
      injection h with h'
      rw [← h'] at hhk
      cases hhk
    | cons l rest =>
      simp only [parseHunks] at h
      split at h
      · split at h
        · cases h
        · split at h
          · cases h
          · injection h with h'
            rw [← h'] at hhk
            rcases List.mem_cons.mp hhk with rfl | htail
            · constructor
              · exact ⟨rest, pos + 1, rfl⟩
              · exact parse_hunk_header_bounds l (g + pos) _ _ _ _ _ (by assumption)
            · exact ih _ _ _ (by assumption) hk htail
      · exact ih rest (pos + 1) hunks h hk hhk

/-- Every hunk of every file parsed out of a block list has the
`parseHunks` shape. -/
theorem parseBlocks_shape (lines : List String) :
    ∀ (blocks : List (Nat × Nat)) (fds : List FileDiff),
    parseBlocks lines blocks = Except.ok fds → ∀ fd ∈ fds, ∀ hk ∈ fd.hunks,
      (∃ rest p, hk.lines = (parseHunkBody hk.old_start hk.new_start rest p).1) ∧
        hk.old_start < U32MOD ∧ hk.new_start < U32MOD := by
  intro blocks
  induction blocks with
  | nil =>
    intro fds h fd hfd
    injection h with h'
    rw [← h'] at hfd
    cases hfd
  | cons blk rest ih =>
    intro fds h fd hfd hk hhk
    rw [show parseBlocks lines (blk :: rest) =
        (match parse_file_block ((lines.drop blk.1).take (blk.2 - blk.1)) blk.1 with
        | Except.error err => Except.error err
        | Except.ok fd =>
          match parseBlocks lines rest with
          | Except.error err => Except.error err
          | Except.ok fds => Except.ok (fd :: fds)) from by
      cases blk; rfl] at h
    split at h
    · cases h
    · split at h
      · cases h
      · rename_i scr1 efd hblk scr2 efds hrest
        injection h with h'
        rw [← h'] at hfd
        rcases List.mem_cons.mp hfd with rfl | htail
        · unfold parse_file_block at hblk
          dsimp only at hblk
          split at hblk
          · cases hblk
          · injection hblk with hblk'
            rw [← hblk'] at hhk
            dsimp only at hhk
            exact parseHunks_shape blk.1 _ _ _ _ (by assumption) hk hhk
        · exact ih _ hrest fd htail hk hhk

theorem parse_diff_shape (input : String) (fds : List FileDiff)
    (hok : parse_diff input = Except.ok fds) : ∀ fd ∈ fds, ∀ hk ∈ fd.hunks,
      (∃ rest p, hk.lines = (parseHunkBody hk.old_start hk.new_start rest p).1) ∧
        hk.old_start < U32MOD ∧ hk.new_start < U32MOD := by
  intro fd hfd hk hhk
  unfold parse_diff at hok
  split at hok
  · injection hok with h'
    rw [← h'] at hfd
    cases hfd
  · unfold parseDiffLines at hok
    split at hok
    · injection hok with h'
      rw [← h'] at hfd
      cases hfd
    · exact parseBlocks_shape _ _ _ hok fd hfd hk hhk

/-- C5 (amended). Every hunk produced by `parse_diff` classifies its lines'
sides by kind — Added lines carry only a new line number, Removed lines
only an old one, Context lines both — and, provided the 32-bit line
counter does not overflow (`old_start` plus the number of old-side lines
stays within `2^32`, and likewise on the new side), the old-side numbers
form the contiguous run starting at `old_start` and the new-side numbers
the contiguous run starting at `new_start`. -/
theorem c5_hunk_line_numbers (input : String) (fds : List FileDiff)
    (fd : FileDiff) (hk : Hunk) (hok : parse_diff input = Except.ok fds)
    (hfd : fd ∈ fds) (hhk : hk ∈ fd.hunks) :
    (∀ l ∈ hk.lines, sideOk l) ∧
      (hk.old_start + (oldSideNums hk).length ≤ U32MOD →
        oldSideNums hk = List.range' hk.old_start (oldSideNums hk).length) ∧
      (hk.new_start + (newSideNums hk).length ≤ U32MOD →
        newSideNums hk = List.range' hk.new_start (newSideNums hk).length) := by
  obtain ⟨⟨rest, p, hlines⟩, hos, hns⟩ := parse_diff_shape input fds hok fd hfd hk hhk
  refine ⟨?_, ?_, ?_⟩
  · intro l hl
    rw [hlines] at hl
    exact parseHunkBody_sideOk rest _ _ _ l hl
  · intro hbound
    unfold oldSideNums at hbound ⊢
    rw [hlines] at hbound ⊢
    have hnums := parseHunkBody_oldNums rest hk.old_start hk.new_start p hos
    refine hnums.trans ?_
    have hmap : ∀ x ∈ List.range' hk.old_start
        ((parseHunkBody hk.old_start hk.new_start rest p).1.filterMap
          (fun l => l.old_line_no)).length, x % U32MOD = x := by
      intro x hx
      have hx' := List.mem_range'_1.mp hx
      exact Nat.mod_eq_of_lt (by omega)
    rw [List.map_congr_left hmap, List.map_id']
  · intro hbound
    unfold newSideNums at hbound ⊢
    rw [hlines] at hbound ⊢
    have hnums := parseHunkBody_newNums rest hk.old_start hk.new_start p hns
    refine hnums.trans ?_
    have hmap : ∀ x ∈ List.range' hk.new_start
        ((parseHunkBody hk.old_start hk.new_start rest p).1.filterMap
          (fun l => l.new_line_no)).length, x % U32MOD = x := by
      intro x hx
      have hx' := List.mem_range'_1.mp hx
      exact Nat.mod_eq_of_lt (by omega)
    rw [List.map_congr_left hmap, List.map_id']

/-- C5 counterexample to the claim as stated: a crafted hunk header
`@@ -4294967295,2 +1,2 @@` drives the 32-bit old-line counter past
`u32::MAX`, so the recorded old-side numbers are `[4294967295, 0]` — not a
contiguous ascending run starting at `old_start`. -/
theorem c5_counterexample :
    ((parse_diff
        "diff --git a/f b/f\n--- a/f\n+++ b/f\n@@ -4294967295,2 +1,2 @@\n a\n b\n").toOption.any
      (fun fds => fds.any (fun fd => fd.hunks.any (fun hk =>
        !(oldSideNums hk ==
          List.range' hk.old_start (oldSideNums hk).length))))) = true := by
  decide

/-- The diff text of the C5 witness. -/
def c5input : String :=
  "diff --git a/f b/f\n--- a/f\n+++ b/f\n@@ -5,4 +5,5 @@\n context\n-old\n+new1\n+new2\n context\n"

/-- The hunk `parse_diff` produces for `c5input`. -/
def c5hunk : Hunk :=
  ⟨5, 4, 5, 5, none,
    [⟨.Context, "context", some 5, some 5⟩,
     ⟨.Removed, "old", some 6, none⟩,
     ⟨.Added, "new1", none, some 6⟩,
     ⟨.Added, "new2", none, some 7⟩,
     ⟨.Context, "context", some 7, some 8⟩]⟩

/-- The file `parse_diff` produces for `c5input`. -/
def c5fd : FileDiff := ⟨some "f", some "f", .Modified, [c5hunk]⟩

theorem c5_witness :
    (parse_diff c5input = Except.ok [c5fd] ∧ c5fd ∈ [c5fd] ∧
        c5hunk ∈ c5fd.hunks) ∧
      ((∀ l ∈ c5hunk.lines, sideOk l) ∧
        (c5hunk.old_start + (oldSideNums c5hunk).length ≤ U32MOD →
          oldSideNums c5hunk =
            List.range' c5hunk.old_start (oldSideNums c5hunk).length) ∧
        (c5hunk.new_start + (newSideNums c5hunk).length ≤ U32MOD →
          newSideNums c5hunk =
            List.range' c5hunk.new_start (newSideNums c5hunk).length)) :=
  ⟨⟨by decide, by decide, by decide⟩,
    c5_hunk_line_numbers c5input [c5fd] c5fd c5hunk (by decide) (by decide)
      (by decide)⟩

/-! ## C6: interdiff of a hunk set against itself is all-Context -/

theorem changeStep_lines_subset (g : List Change) :
    ∀ st : GroupAcc, (∀ c ∈ g, c.tag = ChangeTag.Equal) →
      ∀ l ∈ (g.foldl changeStep st).lines, l ∈ st.lines ∨ l.kind = LineKind.Context := by
  induction g with
  | nil => intro st _ l hl; exact Or.inl hl
  | cons c g ih =>
    intro st hg l hl
    have hc : c.tag = ChangeTag.Equal := hg c (List.mem_cons_self c g)
    have hg' : ∀ c' ∈ g, c'.tag = ChangeTag.Equal :=
      fun c' hc' => hg c' (List.mem_cons_of_mem c hc')
    rcases ih (changeStep st c) hg' l (by simpa using hl) with h | h
    · unfold changeStep at h
      rw [hc] at h
      by_cases hf : st.first = true <;>
        simp [hf] at h <;>
        rcases h with h | h <;>
        first
          | exact Or.inl h
          | exact Or.inr (by rw [h])
    · exact Or.inr h

/-- C6. For every base file body B and every hunk set H,
`compute_interdiff(B, H, H)` yields no non-Context lines (the text-diff
backend reports only Equal changes when both sides are the same body, and
then every line the per-group loop constructs is a Context line). -/
theorem c6_interdiff_self_all_context (d : DiffBackend) (hd : EqualOnRefl d)
    (B : String) (H : List Hunk) :
    ∀ h ∈ compute_interdiff d B H H, ∀ l ∈ h.lines, l.kind = LineKind.Context := by
  intro h hh l hl
  unfold compute_interdiff at hh
  rcases List.mem_filterMap.mp hh with ⟨g, hg, hgh⟩
  unfold groupToHunk at hgh
  by_cases hempty :
      (g.foldl changeStep ⟨[], 0, 0, 0, 0, true⟩).lines.isEmpty = true
  · rw [if_pos hempty] at hgh; cases hgh
  · rw [if_neg hempty] at hgh
    have hlines : h.lines = (g.foldl changeStep ⟨[], 0, 0, 0, 0, true⟩).lines := by
      cases hgh; rfl
    have := changeStep_lines_subset g ⟨[], 0, 0, 0, 0, true⟩
      (hd _ g hg) l (by rw [← hlines]; exact hl)
    rcases this with hmem | hkind
    · cases hmem
    · exact hkind

/-- A degenerate but contract-satisfying text-diff backend, used to witness
`c6_interdiff_self_all_context` at a concrete input. -/
def constDiffBackend : DiffBackend := fun a b =>
  if a = b then []
  else [[⟨.Delete, a, some 0, none⟩], [⟨.Insert, b, none, some 0⟩]]

theorem constDiffBackend_equalOnRefl : EqualOnRefl constDiffBackend := by
  intro s g hg
  simp [constDiffBackend] at hg

/-- A concrete hunk used in witnesses. -/
def hunkEx : Hunk :=
  ⟨1, 2, 1, 3, none,
    [⟨.Context, "a", some 1, some 1⟩,
     ⟨.Added, "x", none, some 2⟩,
     ⟨.Removed, "b", some 2, none⟩,
     ⟨.Added, "c", none, some 3⟩]⟩

theorem c6_witness :
    EqualOnRefl constDiffBackend ∧
      ∀ h ∈ compute_interdiff constDiffBackend "a\nb\n" [hunkEx] [hunkEx],
        ∀ l ∈ h.lines, l.kind = LineKind.Context :=
  ⟨constDiffBackend_equalOnRefl,
    c6_interdiff_self_all_context constDiffBackend constDiffBackend_equalOnRefl
      "a\nb\n" [hunkEx]⟩

/-! ## C7: any successfully added comment clears the thread's agent status -/

/-- C7. For every thread and every comment successfully added to it,
whatever the author type, the in-memory agent-status entry for the thread
is absent once the AddComment action completes. -/
theorem c7_add_comment_clears_agent_status (s : StoreState)
    (agent_status : List (Nat × AgentStatus)) (thread_id : Nat)
    (author_type : AuthorType) (body : String) (comment_id now : Nat)
    (out : StoreState × List (Nat × AgentStatus) × Comment × List WsEventType)
    (h : addCommentAction s agent_status thread_id author_type body comment_id now =
      Except.ok out) :
    lookupK out.2.1 thread_id = none := by
  unfold addCommentAction at h
  cases hadd : add_comment s comment_id now ⟨thread_id, author_type, body⟩ with
  | error e => rw [hadd] at h; cases h
  | ok pair =>
    rw [hadd] at h
    cases h
    exact lookupK_removeK_self agent_status thread_id

/-- A concrete store with one review and one thread carrying one comment. -/
def c7s : StoreState :=
  ⟨[(1, ⟨1, none, .Open, 0, 0, "/r", "HEAD"⟩)],
   [(5, ⟨5, 1, "f.rs", 1, 2, .Comment, .Open,
      [⟨6, .Human, "why?", 0⟩], 0, 0, none, none⟩)], []⟩

/-- The outcome of adding an agent comment to thread 5 of `c7s` while its
agent status is `Working`. -/
def c7out : StoreState × List (Nat × AgentStatus) × Comment × List WsEventType :=
  (⟨[(1, ⟨1, none, .Open, 0, 0, "/r", "HEAD"⟩)],
    [(5, ⟨5, 1, "f.rs", 1, 2, .Comment, .Open,
       [⟨6, .Human, "why?", 0⟩, ⟨7, .Agent, "because", 1⟩], 0, 1, none, none⟩)], []⟩,
   [], ⟨7, .Agent, "because", 1⟩, [.CommentAdded])

theorem c7_witness :
    addCommentAction c7s [(5, AgentStatus.Working)] 5 .Agent "because" 7 1 =
        Except.ok c7out ∧
      lookupK c7out.2.1 5 = none :=
  ⟨by decide,
    c7_add_comment_clears_agent_status c7s [(5, AgentStatus.Working)] 5 .Agent
      "because" 7 1 c7out (by decide)⟩

/-! ## C8: registering presence twice publishes exactly one event -/

/-- C8. For every tracker state in which a review is not currently
connected, two consecutive `register` calls publish exactly one
`AgentPresenceChanged{connected: true}` event: the first call publishes it,
and the second call — on the now-connected entry — changes nothing and
publishes nothing. -/
theorem c8_register_twice_once (m : List (Nat × PresenceState)) (review_id : Nat)
    (h : is_connected m review_id = false) :
    (register m review_id).2 = [⟨review_id, true⟩] ∧
      is_connected (register m review_id).1 review_id = true ∧
      register (register m review_id).1 review_id = ((register m review_id).1, []) := by
  have hwas : ((lookupK m review_id).getD ⟨false, false⟩).connected = false := by
    unfold is_connected at h
    cases hl : lookupK m review_id with
    | none => simp
    | some st => rw [hl] at h; simpa using h
  refine ⟨?_, ?_, ?_⟩
  · simp [register, hwas]
  · simp [register, is_connected, lookupK_insertK_self]
  · unfold register
    rw [lookupK_insertK_self]
    simp [insertK_insertK_same]

theorem c8_witness :
    is_connected [] 3 = false ∧
      ((register [] 3).2 = [⟨3, true⟩] ∧
        is_connected (register [] 3).1 3 = true ∧
        register (register [] 3).1 3 = ((register [] 3).1, [])) :=
  ⟨rfl, c8_register_twice_once [] 3 rfl⟩

/-! ## C9: positions in the bodies reconstructed by GetFileDiff -/

theorem strJoinData : ∀ (init : String) (l : List String),
    (l.foldl (fun r s => r ++ s) init).data =
      init.data ++ (l.map (fun s => s.data)).flatten := by
  intro init l
  induction l generalizing init with
  | nil => simp
  | cons a l ih =>
    rw [List.foldl_cons, ih (init ++ a)]
    simp [String.data_append]

theorem rustSplitLines_append_nl (pre : List Char) :
    ∀ (rest : List Char), '\n' ∉ pre →
      rustSplitLines (pre ++ '\n' :: rest) = pre :: rustSplitLines rest := by
  induction pre with
  | nil =>
    intro rest _
    simp [rustSplitLines]
  | cons c pre ih =>
    intro rest h
    have hc : ¬(c = '\n') := fun hh => h (hh ▸ List.mem_cons_self c pre)
    have hpre : '\n' ∉ pre := fun hh => h (List.mem_cons_of_mem c hh)
    simp only [List.cons_append, rustSplitLines, if_neg hc]
    rw [show pre.append ('\n' :: rest) = pre ++ '\n' :: rest from rfl,
      ih rest hpre]

theorem rustSplitLines_flat (vs : List (List Char)) (h : ∀ v ∈ vs, '\n' ∉ v) :
    rustSplitLines ((vs.map (fun v => v ++ ['\n'])).flatten) = vs := by
  induction vs with
  | nil => rfl
  | cons v vs ih =>
    rw [List.map_cons, List.flatten_cons, List.append_assoc,
      List.singleton_append,
      rustSplitLines_append_nl v _ (h v (List.mem_cons_self v vs)),
      ih (fun w hw => h w (List.mem_cons_of_mem v hw))]

theorem rustLines_join (vs : List String)
    (h : ∀ v ∈ vs, '\n' ∉ v.data ∧ '\r' ∉ v.data) :
    rustLines ((vs.map (fun v => v ++ "\n")).foldl (· ++ ·) "") = vs := by
  unfold rustLines
  rw [show ((vs.map (fun v => v ++ "\n")).foldl (· ++ ·) "").data =
      ((vs.map (fun v => v.data)).map (fun v => v ++ ['\n'])).flatten from by
    rw [strJoinData]
    simp only [List.nil_append, List.map_map]
    congr 1]
  rw [rustSplitLines_flat _ (by
    intro v hv
    rcases List.mem_map.mp hv with ⟨w, hw, rfl⟩
    exact (h w hw).1)]
  rw [List.map_map]
  conv_rhs => rw [← List.map_id' vs]
  apply List.map_congr_left
  intro v hv
  have hcr : v.data.getLast? ≠ some '\r' := by
    intro hr
    exact (h v hv).2 (List.mem_of_getLast?_eq_some hr)
  show String.mk (stripTrailingCR v.data) = v
  unfold stripTrailingCR
  rw [if_neg (by simpa using hcr)]

theorem mapLookupLast_mem (ins : List (Nat × String)) (k : Nat) (v : String)
    (h : mapLookupLast ins k = some v) : (k, v) ∈ ins := by
  unfold mapLookupLast at h
  cases hf : ins.reverse.find? (fun p => p.1 == k) with
  | none => rw [hf] at h; cases h
  | some p =>
    rw [hf] at h
    injection h with h'
    have hp := List.mem_of_find?_eq_some hf
    have hk := List.find?_some hf
    have : p.1 = k := by simpa using hk
    have : p = (k, v) := by
      cases p
      simp_all
    rw [← this]
    exact List.mem_reverse.mp hp

theorem mapLookupLast_eq_none_iff (ins : List (Nat × String)) (k : Nat) :
    mapLookupLast ins k = none ↔ k ∉ ins.map (fun p => p.1) := by
  unfold mapLookupLast
  constructor
  · intro h hk
    rcases List.mem_map.mp hk with ⟨p, hp, hpk⟩
    cases hf : ins.reverse.find? (fun q => q.1 == k) with
    | none =>
      have := List.find?_eq_none.mp hf p (List.mem_reverse.mpr hp)
      simp [hpk] at this
    | some q => rw [hf] at h; cases h
  · intro hk
    cases hf : ins.reverse.find? (fun q => q.1 == k) with
    | none => rfl
    | some q =>
      exfalso
      have hq := List.mem_of_find?_eq_some hf
      have hqk : q.1 = k := by simpa using List.find?_some hf
      exact hk (List.mem_map.mpr ⟨q, List.mem_reverse.mp hq, hqk⟩)

theorem mapLookupLast_functional (ins : List (Nat × String)) (k : Nat)
    (v : String) (hmem : (k, v) ∈ ins)
    (hfun : ∀ p ∈ ins, ∀ q ∈ ins, p.1 = q.1 → p.2 = q.2) :
    mapLookupLast ins k = some v := by
  cases hf : mapLookupLast ins k with
  | none =>
    exfalso
    exact (mapLookupLast_eq_none_iff ins k).mp hf
      (List.mem_map.mpr ⟨(k, v), hmem, rfl⟩)
  | some w =>
    have hw := mapLookupLast_mem ins k w hf
    have : w = v := hfun (k, w) hw (k, v) hmem rfl
    rw [this]

/-- The physical lines of a reconstructed body, when no stored content
contains a line terminator: line `i` (1-based) is the mapped content when
covered and empty otherwise. -/
theorem bodyLines_eq (ins : List (Nat × String))
    (h : ∀ p ∈ ins, '\n' ∉ p.2.data ∧ '\r' ∉ p.2.data) :
    rustLines (toContentStr ins) =
      (List.range' 1 (mapMax ins)).map
        (fun i => (mapLookupLast ins i).getD "") := by
  unfold toContentStr
  by_cases he : ins.isEmpty
  · rw [if_pos he]
    have : ins = [] := by
      cases ins
      · rfl
      · cases he
    rw [this]
    rfl
  · rw [if_neg he]
    rw [show ((List.range' 1 (mapMax ins)).map
          (fun i => ((mapLookupLast ins i).getD "") ++ "\n")) =
        (((List.range' 1 (mapMax ins)).map
          (fun i => (mapLookupLast ins i).getD "")).map (fun v => v ++ "\n"))
      from by rw [List.map_map]; rfl]
    apply rustLines_join
    intro v hv
    rcases List.mem_map.mp hv with ⟨i, _, rfl⟩
    cases hl : mapLookupLast ins i with
    | none => simp
    | some w =>
      have := mapLookupLast_mem ins i w hl
      simpa using h _ this

/-- An old-side record of a hunk line becomes an insert performed by
`reconstruct_file_contents`. -/
theorem oldInserts_of_record (hunks : List Hunk) (hx : Hunk) (l : DiffLine)
    (hhx : hx ∈ hunks) (hl : l ∈ hx.lines) (n : Nat)
    (hno : l.old_line_no = some n) (hkind : l.kind ≠ .Added) :
    (n, l.content) ∈ oldInserts hunks := by
  unfold oldInserts
  apply List.mem_flatten.mpr
  refine ⟨_, List.mem_map.mpr ⟨hx, hhx, rfl⟩, ?_⟩
  apply List.mem_filterMap.mpr
  refine ⟨l, hl, ?_⟩
  cases hk : l.kind with
  | Context => rw [hno]; rfl
  | Removed => rw [hno]; rfl
  | Added => exact absurd hk hkind

theorem newInserts_of_record (hunks : List Hunk) (hx : Hunk) (l : DiffLine)
    (hhx : hx ∈ hunks) (hl : l ∈ hx.lines) (n : Nat)
    (hno : l.new_line_no = some n) (hkind : l.kind ≠ .Removed) :
    (n, l.content) ∈ newInserts hunks := by
  unfold newInserts
  apply List.mem_flatten.mpr
  refine ⟨_, List.mem_map.mpr ⟨hx, hhx, rfl⟩, ?_⟩
  apply List.mem_filterMap.mpr
  refine ⟨l, hl, ?_⟩
  cases hk : l.kind with
  | Context => rw [hno]; rfl
  | Added => rw [hno]; rfl
  | Removed => exact absurd hk hkind

/-- The positional claim on the bodies reconstructed by GetFileDiff: each
recorded line sits at its recorded 1-based position in the respective body
(old side for Context and Removed records, new side for Context and Added
records), and every position from 1 to the maximum recorded one that no
record covers holds an empty line. -/
def c9Placement (hunks : List Hunk) : Prop :=
  (∀ hx ∈ hunks, ∀ l ∈ hx.lines,
    (∀ n, l.old_line_no = some n → l.kind ≠ .Added →
      (oldBodyLines hunks)[n - 1]? = some l.content) ∧
    (∀ n, l.new_line_no = some n → l.kind ≠ .Removed →
      (newBodyLines hunks)[n - 1]? = some l.content)) ∧
  (∀ i, 1 ≤ i → i ≤ mapMax (oldInserts hunks) →
    i ∉ (oldInserts hunks).map (fun p => p.1) →
    (oldBodyLines hunks)[i - 1]? = some "") ∧
  (∀ i, 1 ≤ i → i ≤ mapMax (newInserts hunks) →
    i ∉ (newInserts hunks).map (fun p => p.1) →
    (newBodyLines hunks)[i - 1]? = some "")

theorem body_position_covered (ins : List (Nat × String))
    (h : ∀ p ∈ ins, '\n' ∉ p.2.data ∧ '\r' ∉ p.2.data)
    (hpos : ∀ p ∈ ins, 1 ≤ p.1)
    (hfun : ∀ p ∈ ins, ∀ q ∈ ins, p.1 = q.1 → p.2 = q.2)
    (n : Nat) (v : String) (hmem : (n, v) ∈ ins) :
    (rustLines (toContentStr ins))[n - 1]? = some v := by
  rw [bodyLines_eq ins h]
  have h1 : 1 ≤ n := hpos (n, v) hmem
  have hmax : n ≤ mapMax ins :=
    natListMax_mem_le _ n (List.mem_map.mpr ⟨(n, v), hmem, rfl⟩)
  rw [List.getElem?_map,
    List.getElem?_range' 1 1 (show n - 1 < mapMax ins by omega)]
  rw [show 1 + 1 * (n - 1) = n by omega]
  simp [mapLookupLast_functional ins n v hmem hfun]

theorem body_position_gap (ins : List (Nat × String))
    (h : ∀ p ∈ ins, '\n' ∉ p.2.data ∧ '\r' ∉ p.2.data)
    (i : Nat) (h1 : 1 ≤ i) (hmax : i ≤ mapMax ins)
    (hgap : i ∉ ins.map (fun p => p.1)) :
    (rustLines (toContentStr ins))[i - 1]? = some "" := by
  rw [bodyLines_eq ins h]
  rw [List.getElem?_map,
    List.getElem?_range' 1 1 (show i - 1 < mapMax ins by omega)]
  rw [show 1 + 1 * (i - 1) = i by omega]
  simp [(mapLookupLast_eq_none_iff ins i).mpr hgap]

/-- C9 (amended). For every hunk list whose recorded contents contain no
line terminators, whose recorded line numbers are at least 1, and whose
records are consistent (two records of the same number on the same side
carry the same content), the bodies reconstructed by
`reconstruct_file_contents` place each recorded line at its recorded
1-based position — so a per-line highlight of the body indexed at
`old_line_no − 1` / `new_line_no − 1` lands on that diff line — and fill
every uncovered position up to the maximum recorded one with an empty
line. -/
theorem c9_reconstructed_positions (hunks : List Hunk)
    (hNL : ∀ p ∈ oldInserts hunks ++ newInserts hunks,
      '\n' ∉ p.2.data ∧ '\r' ∉ p.2.data)
    (hPos : ∀ p ∈ oldInserts hunks ++ newInserts hunks, 1 ≤ p.1)
    (hFunO : ∀ p ∈ oldInserts hunks, ∀ q ∈ oldInserts hunks,
      p.1 = q.1 → p.2 = q.2)
    (hFunN : ∀ p ∈ newInserts hunks, ∀ q ∈ newInserts hunks,
      p.1 = q.1 → p.2 = q.2) :
    c9Placement hunks := by
  have hNLo : ∀ p ∈ oldInserts hunks, '\n' ∉ p.2.data ∧ '\r' ∉ p.2.data :=
    fun p hp => hNL p (List.mem_append_left _ hp)
  have hNLn : ∀ p ∈ newInserts hunks, '\n' ∉ p.2.data ∧ '\r' ∉ p.2.data :=
    fun p hp => hNL p (List.mem_append_right _ hp)
  have hPosO : ∀ p ∈ oldInserts hunks, 1 ≤ p.1 :=
    fun p hp => hPos p (List.mem_append_left _ hp)
  have hPosN : ∀ p ∈ newInserts hunks, 1 ≤ p.1 :=
    fun p hp => hPos p (List.mem_append_right _ hp)
  refine ⟨?_, ?_, ?_⟩
  · intro hx hhx l hl
    constructor
    · intro n hno hkind
      exact body_position_covered (oldInserts hunks) hNLo hPosO hFunO n
        l.content (oldInserts_of_record hunks hx l hhx hl n hno hkind)
    · intro n hno hkind
      exact body_position_covered (newInserts hunks) hNLn hPosN hFunN n
        l.content (newInserts_of_record hunks hx l hhx hl n hno hkind)
  · intro i h1 hmax hgap
    exact body_position_gap (oldInserts hunks) hNLo i h1 hmax hgap
  · intro i h1 hmax hgap
    exact body_position_gap (newInserts hunks) hNLn i h1 hmax hgap

/-- The hunk list of the C9 counterexample: two Context lines both recorded
at old and new line 1, with different contents. -/
def c9bad : List Hunk :=
  [⟨1, 1, 1, 1, none,
    [⟨.Context, "a", some 1, some 1⟩, ⟨.Context, "b", some 1, some 1⟩]⟩]

/-- C9 counterexample to the claim as stated: with two lines recording the
same position, the later insert wins in the `BTreeMap`, so the earlier
diff line (content "a") is not at its recorded position — line 1 of the
reconstructed body is "b". -/
theorem c9_counterexample : ¬ c9Placement c9bad := by
  intro h
  have := (h.1 ⟨1, 1, 1, 1, none,
      [⟨.Context, "a", some 1, some 1⟩, ⟨.Context, "b", some 1, some 1⟩]⟩
      (by decide) ⟨.Context, "a", some 1, some 1⟩ (by decide)).1 1 rfl (by decide)
  exact absurd this (by decide)

/-- The hunk list of the C9 witness (consistent records, gap at new line
3). -/
def c9w : List Hunk :=
  [⟨1, 2, 1, 2, none,
    [⟨.Context, "alpha", some 1, some 1⟩,
     ⟨.Removed, "beta", some 2, none⟩,
     ⟨.Added, "gamma", none, some 2⟩]⟩,
   ⟨4, 1, 4, 1, none, [⟨.Context, "delta", some 4, some 4⟩]⟩]

theorem c9_witness :
    ((∀ p ∈ oldInserts c9w ++ newInserts c9w,
        '\n' ∉ p.2.data ∧ '\r' ∉ p.2.data) ∧
      (∀ p ∈ oldInserts c9w ++ newInserts c9w, 1 ≤ p.1) ∧
      (∀ p ∈ oldInserts c9w, ∀ q ∈ oldInserts c9w, p.1 = q.1 → p.2 = q.2) ∧
      (∀ p ∈ newInserts c9w, ∀ q ∈ newInserts c9w, p.1 = q.1 → p.2 = q.2)) ∧
      c9Placement c9w :=
  ⟨⟨by decide, by decide, by decide, by decide⟩,
    c9_reconstructed_positions c9w (by decide) (by decide) (by decide)
      (by decide)⟩

/-! ## C10: inputs without a `diff --git ` line always parse to `Ok([])` -/

/-- C10. For every input string none of whose lines starts with
`diff --git `, the parser returns `Ok` with an empty file list: a parse
error can only arise inside a block introduced by a `diff --git ` line. -/
theorem c10_no_marker_parses_empty (input : String)
    (h : ∀ l ∈ rustLines input, strStartsWith l "diff --git " = false) :
    parse_diff input = Except.ok [] := by
  unfold parse_diff
  by_cases he : input.data.isEmpty
  · rw [if_pos he]
  · rw [if_neg he]
    unfold parseDiffLines blockStarts
    rw [if_pos]
    have : ∀ p ∈ (List.range (rustLines input).length).zip (rustLines input),
        (if strStartsWith p.2 "diff --git " then some p.1 else none) = none := by
      intro p hp
      have hmem : p.2 ∈ rustLines input := (List.of_mem_zip hp).2
      rw [h p.2 hmem]
      simp
    rw [List.filterMap_eq_nil_iff.mpr this]
    rfl

/-! ## C1: the structural no-change rejection of CreateRevision -/

/-- The claim's "identical per-line content and kind" for one line pair. -/
def lineMatches (a b : DiffLine) : Prop :=
  a.content = b.content ∧ a.kind = b.kind

/-- The claim's "matching hunk has identical
old_start/new_start/old_count/new_count and identical per-line
content and kind" for one hunk pair. -/
def hunkMatches (a b : Hunk) : Prop :=
  a.old_start = b.old_start ∧ a.new_start = b.new_start ∧
  a.old_count = b.old_count ∧ a.new_count = b.new_count ∧
  List.Forall₂ lineMatches a.lines b.lines

/-- The claim's notion of structural identity of two file lists: same set
of effective paths, same hunk count, and positionally matching hunks
identical (the `Forall₂` packages the equal count with the matching). -/
def structIdentSpec (oldFiles newFiles : List FileDiff) : Prop :=
  (oldFiles.map effectivePath) ⊆ (newFiles.map effectivePath) ∧
  (newFiles.map effectivePath) ⊆ (oldFiles.map effectivePath) ∧
  List.Forall₂ hunkMatches (flatHunks oldFiles) (flatHunks newFiles)

/-- What the code actually tests: structural identity plus an equal number
of files. -/
def structIdentAmended (oldFiles newFiles : List FileDiff) : Prop :=
  structIdentSpec oldFiles newFiles ∧ oldFiles.length = newFiles.length

theorem lineEqB_iff (a b : DiffLine) : lineEqB a b = true ↔ lineMatches a b := by
  simp [lineEqB, lineMatches]

theorem zip_all_iff_forall₂ {α β : Type} (R : α → β → Prop) (f : α → β → Bool)
    (hf : ∀ a b, f a b = true ↔ R a b) (l₁ : List α) (l₂ : List β) :
    (l₁.length == l₂.length && (l₁.zip l₂).all (fun ab => f ab.1 ab.2)) = true ↔
      List.Forall₂ R l₁ l₂ := by
  rw [List.forall₂_iff_zip]
  simp only [Bool.and_eq_true, beq_iff_eq, List.all_eq_true]
  constructor
  · rintro ⟨hlen, hall⟩
    exact ⟨hlen, fun hab => (hf _ _).mp (hall _ hab)⟩
  · rintro ⟨hlen, hall⟩
    exact ⟨hlen, fun ab hab => (hf _ _).mpr (hall hab)⟩

theorem hunkEqB_iff (a b : Hunk) : hunkEqB a b = true ↔ hunkMatches a b := by
  unfold hunkEqB hunkMatches
  rw [Bool.and_eq_true, Bool.and_eq_true, Bool.and_eq_true, Bool.and_eq_true,
    Bool.and_eq_true]
  have hz := zip_all_iff_forall₂ lineMatches lineEqB lineEqB_iff a.lines b.lines
  rw [Bool.and_eq_true] at hz
  simp only [beq_iff_eq] at hz ⊢
  constructor
  · rintro ⟨⟨⟨⟨⟨h1, h2⟩, h3⟩, h4⟩, h5⟩, h6⟩
    exact ⟨h1, h2, h3, h4, hz.mp ⟨h5, h6⟩⟩
  · rintro ⟨h1, h2, h3, h4, h5⟩
    rcases hz.mpr h5 with ⟨hl, ha⟩
    exact ⟨⟨⟨⟨⟨h1, h2⟩, h3⟩, h4⟩, hl⟩, ha⟩

theorem subset_all_contains_iff (l₁ l₂ : List String) :
    (l₁.all (fun p => l₂.contains p)) = true ↔ l₁ ⊆ l₂ := by
  simp [List.all_eq_true, List.subset_def, List.contains, List.elem_iff]

theorem noChangesB_iff (oldFiles newFiles : List FileDiff) :
    noChangesB oldFiles newFiles = true ↔ structIdentAmended oldFiles newFiles := by
  unfold noChangesB structIdentAmended structIdentSpec
  rw [Bool.and_eq_true, Bool.and_eq_true, Bool.and_eq_true]
  rw [subset_all_contains_iff, subset_all_contains_iff]
  rw [zip_all_iff_forall₂ hunkMatches hunkEqB hunkEqB_iff]
  simp only [beq_iff_eq]
  constructor
  · rintro ⟨⟨⟨h1, h2⟩, h3⟩, h4⟩
    exact ⟨⟨h1, h2, h4⟩, h3⟩
  · rintro ⟨⟨h1, h2, h4⟩, h3⟩
    exact ⟨⟨⟨h1, h2⟩, h3⟩, h4⟩

/-- The revision built and inserted by the CreateRevision route. -/
def routeRevision (s : StoreState) (review_id : Nat) (files : List FileDiff)
    (trigger : RevisionTrigger) (message : Option String) (revision_id now : Nat) :
    Revision :=
  ⟨revision_id, review_id, nextRevisionNumber s review_id, trigger, message,
    files, now⟩

/-- C1 (amended). For a review with at least one revision, the
CreateRevision action fails BadRequest "no changes detected since last
revision" if and only if the freshly computed file list is structurally
identical to the latest revision's AND has the same number of files (the
code checks the file count in addition to the path set); otherwise the
revision is inserted — and the handler publishes no event at all (no
`RevisionCreated` is ever emitted). -/
theorem c1_no_change_revision (s : StoreState) (review_id : Nat)
    (latest : Revision) (files : List FileDiff) (trigger : RevisionTrigger)
    (message : Option String) (revision_id now : Nat)
    (hrv : get_latest_revision s review_id = Except.ok latest) :
    (createRevisionAction s review_id files trigger message revision_id now =
        Except.error (.BadRequest "no changes detected since last revision") ↔
      structIdentAmended latest.files files) ∧
      (¬ structIdentAmended latest.files files →
        createRevisionAction s review_id files trigger message revision_id now =
          Except.ok
            ({ s with revisions := insertK s.revisions revision_id (routeRevision s review_id files trigger message revision_id now) },
              routeRevision s review_id files trigger message revision_id now,
              [])) := by
  have hcont : containsK s.reviews review_id = true := by
    unfold get_latest_revision at hrv
    by_cases hc : (!(containsK s.reviews review_id)) = true
    · rw [if_pos hc] at hrv; cases hrv
    · simpa using hc
  have hrev : ∃ r, lookupK s.reviews review_id = some r := by
    unfold containsK at hcont
    cases hlk : lookupK s.reviews review_id with
    | none => rw [hlk] at hcont; cases hcont
    | some r => exact ⟨r, rfl⟩
  rcases hrev with ⟨r, hlk⟩
  unfold createRevisionAction get_review create_revision
  rw [hlk, hrv]
  dsimp only
  rw [if_neg (show ¬((!containsK s.reviews review_id) = true) by simp [hcont])]
  by_cases hnc : noChangesB latest.files files = true
  · rw [if_pos hnc]
    constructor
    · simp only [true_iff]
      exact (noChangesB_iff _ _).mp hnc
    · intro habs
      exact absurd ((noChangesB_iff _ _).mp hnc) habs
  · rw [if_neg hnc]
    constructor
    · constructor
      · intro habs
        exact Except.noConfusion habs
      · intro hident
        exact absurd ((noChangesB_iff _ _).mpr hident) hnc
    · intro _
      rfl

/-- The file entry used in the C1 counterexample and witness: a modified
file at path `p` with no hunks. -/
def c1fp : FileDiff := ⟨some "p", some "p", .Modified, []⟩

/-- A store whose review 7 has one revision listing `c1fp` twice. -/
def c1sA : StoreState :=
  ⟨[(7, ⟨7, none, .Open, 0, 0, "/r", "HEAD"⟩)], [],
   [(3, ⟨3, 7, 1, .Manual, none, [c1fp, c1fp], 0⟩)]⟩

/-- A store whose review 7 has one revision with an empty file list. -/
def c1sB : StoreState :=
  ⟨[(7, ⟨7, none, .Open, 0, 0, "/r", "HEAD"⟩)], [],
   [(3, ⟨3, 7, 1, .Manual, none, [], 0⟩)]⟩

/-- C1 counterexample to the claim as stated, in both directions it fails:
(i) the fresh list `[c1fp]` is structurally identical — in the claim's
sense — to the latest revision's `[c1fp, c1fp]` (same effective-path set,
same hunk count 0, no hunks to mismatch), yet the action succeeds instead
of failing BadRequest, because the code additionally compares file counts;
(ii) on a successful creation the handler publishes no event, not exactly
one `RevisionCreated`. -/
theorem c1_counterexample :
    (get_latest_revision c1sA 7 =
        Except.ok ⟨3, 7, 1, .Manual, none, [c1fp, c1fp], 0⟩) ∧
      structIdentSpec [c1fp, c1fp] [c1fp] ∧
      (createRevisionAction c1sA 7 [c1fp] .Manual none 9 0).isOk = true ∧
      ((createRevisionAction c1sB 7 [c1fp] .Manual none 9 0).toOption.any
        (fun out => out.2.2.isEmpty)) = true := by
  refine ⟨by decide, ⟨?_, ?_, ?_⟩, by decide, by decide⟩
  · decide
  · decide
  · exact List.Forall₂.nil

theorem c1_witness :
    (get_latest_revision c1sB 7 = Except.ok ⟨3, 7, 1, .Manual, none, [], 0⟩) ∧
      ((createRevisionAction c1sB 7 [c1fp] .Manual none 9 0 =
          Except.error (.BadRequest "no changes detected since last revision") ↔
        structIdentAmended [] [c1fp]) ∧
        (¬ structIdentAmended [] [c1fp] →
          createRevisionAction c1sB 7 [c1fp] .Manual none 9 0 =
            Except.ok
              ({ c1sB with revisions := insertK c1sB.revisions 9 (routeRevision c1sB 7 [c1fp] .Manual none 9 0) },
                routeRevision c1sB 7 [c1fp] .Manual none 9 0, []))) :=
  ⟨by decide,
    c1_no_change_revision c1sB 7 ⟨3, 7, 1, .Manual, none, [], 0⟩ [c1fp]
      .Manual none 9 0 (by decide)⟩

/-! ## C2: a diff-parser failure is swallowed, not surfaced

`git_diff.rs::diff_against_base` replaces a `ParseError` by the empty file
list (`parse_diff(..).unwrap_or_default()`), so the CreateReview action
succeeds and creates the review — it does not fail Internal. The unused
`GitDiffError::ParseFailed` variant is never constructed. -/

/-- C2 (amended). For every diff text on which the parser fails, the
CreateReview action nevertheless succeeds: the parse error is swallowed,
the review is created, and revision 1 carries an empty file list. -/
theorem c2_parse_error_swallowed (s : StoreState) (diff_text : String)
    (req : CreateReviewRequest) (review_id revision_id now : Nat) (e : ParseError)
    (h : parse_diff diff_text = Except.error e) :
    ∃ out, createReviewAction s diff_text req review_id revision_id now =
        Except.ok out ∧
      lookupK out.state.reviews review_id =
        some ⟨review_id, req.title, .Open, now, now, req.repo_path, req.base_ref⟩ ∧
      out.revision_files = [] ∧
      out.events = [.ReviewCreated] := by
  have hfiles : diff_against_base_files diff_text = [] := by
    unfold diff_against_base_files
    rw [h]
  have hcont : ∀ v, containsK (insertK s.reviews review_id v) review_id = true :=
    fun v => containsK_insertK_self s.reviews review_id v
  unfold createReviewAction create_review
  rw [hfiles]
  unfold create_revision
  simp only [hcont, Bool.not_true, Bool.false_eq_true, if_false]
  unfold get_threads
  simp only [hcont, Bool.not_true, Bool.false_eq_true, if_false]
  exact ⟨_, rfl, lookupK_insertK_self s.reviews review_id _, rfl, rfl⟩

/-- C2 counterexample to the claim as stated: on a diff text the parser
rejects, the CreateReview action succeeds (it neither fails Internal nor
skips creating the review). -/
theorem c2_counterexample :
    (parse_diff "diff --git a/f b/f\n@@ bad @@\n").isOk = false ∧
      ((createReviewAction emptyStore "diff --git a/f b/f\n@@ bad @@\n"
          ⟨none, "/r", "HEAD"⟩ 1 2 0).toOption.any
        (fun out => (lookupK out.state.reviews 1).isSome &&
          out.revision_files.isEmpty && out.events == [.ReviewCreated])) = true :=
  ⟨by decide, by decide⟩

theorem c2_witness :
    (parse_diff "diff --git a/f b/f\n@@ bad @@\n" =
        Except.error ⟨2, "expected two range specs, got 1"⟩) ∧
      ∃ out, createReviewAction emptyStore "diff --git a/f b/f\n@@ bad @@\n"
          ⟨none, "/r", "HEAD"⟩ 1 2 0 = Except.ok out ∧
        lookupK out.state.reviews 1 = some ⟨1, none, .Open, 0, 0, "/r", "HEAD"⟩ ∧
        out.revision_files = [] ∧
        out.events = [.ReviewCreated] :=
  ⟨by decide,
    c2_parse_error_swallowed emptyStore "diff --git a/f b/f\n@@ bad @@\n"
      ⟨none, "/r", "HEAD"⟩ 1 2 0 ⟨2, "expected two range specs, got 1"⟩ (by decide)⟩

/-! ## C3: revision numbers of a review are exactly 1..N -/

/-- The revision-number invariant: for every review id, the revision
numbers stored for it form a permutation of `1..n` for some `n`. -/
def RevInv (s : StoreState) : Prop :=
  ∀ rid : Nat, ∃ n : Nat, (revNums s rid).Perm (List.range' 1 n)

theorem revsOf_filter_other (revisions : List (Nat × Revision)) (id rid : Nat)
    (h : rid ≠ id) :
    ((revisions.filter (fun p => !(p.2.review_id == id))).map (fun p => p.2)).filter
        (fun r => r.review_id == rid) =
      (revisions.map (fun p => p.2)).filter (fun r => r.review_id == rid) := by
  induction revisions with
  | nil => rfl
  | cons p l ih =>
    rw [List.filter_cons, List.map_cons, List.filter_cons]
    by_cases hid : p.2.review_id = id
    · have h1 : (!(p.2.review_id == id)) = false := by simp [hid]
      have h2 : (p.2.review_id == rid) = false := by
        simp only [beq_eq_false_iff_ne, ne_eq, hid]
        exact fun hh => h hh.symm
      rw [h1, h2]
      simpa using ih
    · have h1 : (!(p.2.review_id == id)) = true := by simp [hid]
      rw [h1]
      simp only [if_true, List.map_cons, List.filter_cons]
      rw [ih]

theorem revsOf_filter_self (revisions : List (Nat × Revision)) (id : Nat) :
    ((revisions.filter (fun p => !(p.2.review_id == id))).map (fun p => p.2)).filter
        (fun r => r.review_id == id) = [] := by
  rw [List.filter_eq_nil_iff]
  intro r hr
  rcases List.mem_map.mp hr with ⟨p, hp, rfl⟩
  have := List.of_mem_filter hp
  simpa using this

theorem revNums_removeReviewDeps (s : StoreState) (id rid : Nat) :
    revNums (removeReviewDeps s id) rid =
      if rid = id then [] else revNums s rid := by
  by_cases h : rid = id
  · rw [if_pos h, h]
    unfold revNums revsOf removeReviewDeps
    rw [revsOf_filter_self]
    rfl
  · rw [if_neg h]
    unfold revNums revsOf removeReviewDeps
    rw [revsOf_filter_other s.revisions id rid h]

theorem revNums_insert_rev (s : StoreState) (id : Nat) (rev : Revision)
    (rid : Nat) (hfresh : lookupK s.revisions id = none) :
    revNums { s with revisions := insertK s.revisions id rev } rid =
      (if rev.review_id = rid then revNums s rid ++ [rev.revision_number]
       else revNums s rid) := by
  unfold revNums revsOf
  rw [insertK_of_not_contains s.revisions id rev hfresh]
  by_cases h : rev.review_id = rid
  · rw [if_pos h]
    simp [h]
  · rw [if_neg h]
    simp [h]

theorem revInv_removeReviewDeps (s : StoreState) (id : Nat) (h : RevInv s) :
    RevInv (removeReviewDeps s id) := by
  intro rid
  rw [revNums_removeReviewDeps]
  by_cases hid : rid = id
  · rw [if_pos hid]
    exact ⟨0, by simp⟩
  · rw [if_neg hid]
    exact h rid

theorem revInv_foldl_remove (ids : List Nat) :
    ∀ s : StoreState, RevInv s → RevInv (ids.foldl removeReviewDeps s) := by
  induction ids with
  | nil => intro s h; exact h
  | cons id ids ih =>
    intro s h
    exact ih (removeReviewDeps s id) (revInv_removeReviewDeps s id h)

/-- Every reachable store state satisfies the revision-number invariant. -/
theorem reachable_revInv (s : StoreState) (h : Reachable s) : RevInv s := by
  induction h with
  | empty => intro rid; exact ⟨0, by simp [revNums, revsOf, emptyStore]⟩
  | create_review s id now input h hfresh ih =>
    intro rid
    exact ih rid
  | update_review_status s id status now s' h hok ih =>
    intro rid
    unfold update_review_status at hok
    cases hlk : lookupK s.reviews id with
    | none => rw [hlk] at hok; cases hok
    | some r =>
      rw [hlk] at hok
      cases hok
      exact ih rid
  | delete_review s id s' h hok ih =>
    unfold delete_review at hok
    by_cases hc : containsK s.reviews id = true
    · rw [if_pos hc] at hok
      cases hok
      exact revInv_removeReviewDeps s id ih
    · rw [if_neg hc] at hok
      cases hok
  | delete_closed_reviews s h ih =>
    unfold delete_closed_reviews
    by_cases hc :
        ((s.reviews.filter (fun p => p.2.status == .Closed)).map (fun p => p.1)).isEmpty = true
    · rw [if_pos hc]
      exact ih
    · rw [if_neg hc]
      exact revInv_foldl_remove _ s ih
  | create_thread s thread_id comment_id now input s' t h hfresh hok ih =>
    intro rid
    unfold create_thread at hok
    by_cases hc : (!(containsK s.reviews input.review_id)) = true
    · rw [if_pos hc] at hok; cases hok
    · rw [if_neg hc] at hok
      cases hok
      exact ih rid
  | update_thread_status s thread_id status now s' h hok ih =>
    intro rid
    unfold update_thread_status at hok
    cases hlk : lookupK s.threads thread_id with
    | none => rw [hlk] at hok; cases hok
    | some t =>
      rw [hlk] at hok
      cases hok
      exact ih rid
  | add_comment s comment_id now input s' c h hok ih =>
    intro rid
    unfold add_comment at hok
    cases hlk : lookupK s.threads input.thread_id with
    | none => rw [hlk] at hok; cases hok
    | some t =>
      rw [hlk] at hok
      cases hok
      exact ih rid
  | create_revision s id now input s' r h hfresh hok ih =>
    intro rid
    unfold create_revision at hok
    by_cases hc : (!(containsK s.reviews input.review_id)) = true
    · rw [if_pos hc] at hok; cases hok
    · rw [if_neg hc] at hok
      cases hok
      rw [revNums_insert_rev s id _ rid hfresh]
      by_cases hr : input.review_id = rid
      · rw [if_pos hr]
        subst hr
        rcases ih input.review_id with ⟨n, hperm⟩
        refine ⟨n + 1, ?_⟩
        have hmax : nextRevisionNumber s input.review_id = n + 1 := by
          unfold nextRevisionNumber
          rw [natListMax_of_perm_range _ n hperm]
        rw [hmax]
        have : List.range' 1 (n + 1) = List.range' 1 n ++ [n + 1] := by
          rw [List.range'_concat]
          simp [Nat.add_comm]
        rw [this]
        exact hperm.append (List.Perm.refl [n + 1])
      · rw [if_neg hr]
        exact ih rid

/-- C3. In every reachable store state, and for every review the store
knows, `get_revisions` returns the review's revisions sorted so that their
revision numbers are exactly the contiguous run `1..len`; consequently the
next revision number assigned by `create_revision` — one more than the
maximum existing number, 1 when none exist — equals `len + 1`. -/
theorem c3_revision_numbers_dense (s : StoreState) (rid : Nat)
    (revs : List Revision) (h : Reachable s)
    (hok : get_revisions s rid = Except.ok revs) :
    revs.map (fun r => r.revision_number) = List.range' 1 revs.length ∧
      nextRevisionNumber s rid = revs.length + 1 := by
  unfold get_revisions at hok
  by_cases hc : (!(containsK s.reviews rid)) = true
  · rw [if_pos hc] at hok; cases hok
  · rw [if_neg hc] at hok
    have hrevs : revs = (revsOf s rid).mergeSort
        (fun a b => a.revision_number ≤ b.revision_number) := by
      cases hok; rfl
    rcases reachable_revInv s h rid with ⟨n, hperm⟩
    have hperm2 : revs.Perm (revsOf s rid) := by
      rw [hrevs]
      exact List.mergeSort_perm _ _
    have hnums_perm : (revs.map (fun r => r.revision_number)).Perm
        (List.range' 1 n) := ((hperm2.map _).trans hperm)
    have hsorted : (revs.map (fun r => r.revision_number)).Sorted (· ≤ ·) := by
      have hpw := List.sorted_mergeSort
        (fun a b c (hab : (a.revision_number ≤ b.revision_number : Bool))
            (hbc : (b.revision_number ≤ c.revision_number : Bool)) => by
          simp only [decide_eq_true_eq] at hab hbc ⊢
          omega)
        (fun a b => by
          simp only [Bool.or_eq_true, decide_eq_true_eq]
          omega)
        (revsOf s rid)
      rw [← hrevs] at hpw
      exact List.Pairwise.map _ (fun a b hab => by
        simpa using hab) hpw
    have hsorted_range : (List.range' 1 n).Sorted (· ≤ ·) :=
      (List.pairwise_lt_range' 1 n).imp Nat.le_of_lt
    have heq : revs.map (fun r => r.revision_number) = List.range' 1 n :=
      List.eq_of_perm_of_sorted hnums_perm hsorted hsorted_range
    have hlen : revs.length = n := by
      have := congrArg List.length heq
      simpa using this
    constructor
    · rw [heq, hlen]
    · unfold nextRevisionNumber
      rw [natListMax_of_perm_range _ n (by
        unfold revNums
        exact (hperm2.map _).symm.trans hnums_perm), hlen]

/-- The reachable state used in the C3 witness: one review created, then
one revision. -/
def c3s : StoreState :=
  ⟨[(1, ⟨1, none, .Open, 0, 0, "/r", "HEAD"⟩)], [],
   [(10, ⟨10, 1, 1, .Manual, none, [], 0⟩)]⟩

theorem c3s_reachable : Reachable c3s :=
  Reachable.create_revision (create_review emptyStore 1 0 ⟨none, "/r", "HEAD"⟩).1
    10 0 ⟨1, .Manual, none, []⟩ c3s ⟨10, 1, 1, .Manual, none, [], 0⟩
    (Reachable.create_review emptyStore 1 0 ⟨none, "/r", "HEAD"⟩
      Reachable.empty (by decide))
    (by decide) (by decide)

theorem c3_witness :
    get_revisions c3s 1 = Except.ok [⟨10, 1, 1, .Manual, none, [], 0⟩] ∧
      ([(⟨10, 1, 1, .Manual, none, [], 0⟩ : Revision)].map
          (fun r => r.revision_number) =
        List.range' 1 [(⟨10, 1, 1, .Manual, none, [], 0⟩ : Revision)].length ∧
        nextRevisionNumber c3s 1 =
          [(⟨10, 1, 1, .Manual, none, [], 0⟩ : Revision)].length + 1) := by
  have hok : get_revisions c3s 1 =
      Except.ok [⟨10, 1, 1, .Manual, none, [], 0⟩] := by
    unfold get_revisions
    rw [if_neg (by decide)]
    rw [show revsOf c3s 1 = [⟨10, 1, 1, .Manual, none, [], 0⟩] from by decide]
    rw [List.mergeSort_singleton]
  exact ⟨hok, c3_revision_numbers_dense c3s 1 _ c3s_reachable hok⟩

/-! ## C4: deleting a review removes exactly its children -/

/-- C4. For every store state containing a review, `delete_review` succeeds
and removes the review together with exactly the threads and revisions
whose `review_id` is that review, leaves every other review, thread and
revision unchanged, and afterwards `get_review`, `get_threads` and
`get_revisions` on the deleted review all fail with `ReviewNotFound`. -/
theorem c4_delete_review_frame (s : StoreState) (id : Nat) (r : Review)
    (h : lookupK s.reviews id = some r) :
    delete_review s id = Except.ok (removeReviewDeps s id) ∧
      (∀ p, p ∈ (removeReviewDeps s id).threads ↔
        p ∈ s.threads ∧ p.2.review_id ≠ id) ∧
      (∀ p, p ∈ (removeReviewDeps s id).revisions ↔
        p ∈ s.revisions ∧ p.2.review_id ≠ id) ∧
      (∀ k, k ≠ id →
        lookupK (removeReviewDeps s id).reviews k = lookupK s.reviews k) ∧
      get_review (removeReviewDeps s id) id = Except.error (.ReviewNotFound id) ∧
      (∀ fp, get_threads (removeReviewDeps s id) id fp =
        Except.error (.ReviewNotFound id)) ∧
      get_revisions (removeReviewDeps s id) id = Except.error (.ReviewNotFound id) := by
  have hcontains : containsK s.reviews id = true := by simp [containsK, h]
  have hnone : lookupK (removeReviewDeps s id).reviews id = none := by
    unfold removeReviewDeps
    exact lookupK_removeK_self s.reviews id
  refine ⟨?_, ?_, ?_, ?_, ?_, ?_, ?_⟩
  · unfold delete_review
    rw [if_pos hcontains]
  · intro p
    unfold removeReviewDeps
    simp [List.mem_filter]
  · intro p
    unfold removeReviewDeps
    simp [List.mem_filter]
  · intro k hk
    unfold removeReviewDeps
    exact lookupK_removeK_other s.reviews id k hk
  · unfold get_review
    rw [hnone]
  · intro fp
    unfold get_threads
    rw [show containsK (removeReviewDeps s id).reviews id = false by
      simp [containsK, hnone]]
    rfl
  · unfold get_revisions
    rw [show containsK (removeReviewDeps s id).reviews id = false by
      simp [containsK, hnone]]
    rfl

/-- A concrete store with two reviews, a thread and a revision under each. -/
def c4s : StoreState :=
  ⟨[(1, ⟨1, none, .Open, 0, 0, "/r", "HEAD"⟩),
    (2, ⟨2, some "other", .Open, 0, 0, "/q", "HEAD"⟩)],
   [(5, ⟨5, 1, "f.rs", 1, 1, .Comment, .Open, [⟨6, .Human, "a", 0⟩], 0, 0, none, none⟩),
    (7, ⟨7, 2, "g.rs", 1, 1, .Comment, .Open, [⟨8, .Human, "b", 0⟩], 0, 0, none, none⟩)],
   [(9, ⟨9, 1, 1, .Manual, none, [], 0⟩),
    (10, ⟨10, 2, 1, .Manual, none, [], 0⟩)]⟩

theorem c4_witness :
    lookupK c4s.reviews 1 = some ⟨1, none, .Open, 0, 0, "/r", "HEAD"⟩ ∧
      (delete_review c4s 1 = Except.ok (removeReviewDeps c4s 1) ∧
        (∀ p, p ∈ (removeReviewDeps c4s 1).threads ↔
          p ∈ c4s.threads ∧ p.2.review_id ≠ 1) ∧
        (∀ p, p ∈ (removeReviewDeps c4s 1).revisions ↔
          p ∈ c4s.revisions ∧ p.2.review_id ≠ 1) ∧
        (∀ k, k ≠ 1 →
          lookupK (removeReviewDeps c4s 1).reviews k = lookupK c4s.reviews k) ∧
        get_review (removeReviewDeps c4s 1) 1 = Except.error (.ReviewNotFound 1) ∧
        (∀ fp, get_threads (removeReviewDeps c4s 1) 1 fp =
          Except.error (.ReviewNotFound 1)) ∧
        get_revisions (removeReviewDeps c4s 1) 1 =
          Except.error (.ReviewNotFound 1)) :=
  ⟨by decide, c4_delete_review_frame c4s 1 ⟨1, none, .Open, 0, 0, "/r", "HEAD"⟩ (by decide)⟩

theorem c10_witness :
    (∀ l ∈ rustLines "hello world\nthis is not a diff\n--- a/f\n@@ -1 +1 @@",
      strStartsWith l "diff --git " = false) ∧
      parse_diff "hello world\nthis is not a diff\n--- a/f\n@@ -1 +1 @@" =
        Except.ok [] :=
  ⟨by decide, c10_no_marker_parses_empty _ (by decide)⟩

end Preflight
